import Mathlib

/-!
Shallow embedding of the PDFHighlighter repository (src/App.py): lexicon
compilation, token matching, the first-seen color state machine, the index
aggregator, and the index-page layout engine, together with theorems
settling the specification claims about them.

Python strings are modelled through their character lists so that every
operation is kernel-computable; Python `str.lower`, `str.strip`, the
substring test `" " in s` and slicing `s[:n]` become `pyLower`, `pyStrip`,
`pyContainsSpace` and `pyTake` below. Python dicts become association lists
whose assignment prepends the new binding (lookup returns the most recent
one, i.e. last write wins), and Python sets become duplicate-free lists.
-/

/-- ASCII lowercasing of one character, the character-level behaviour of
Python `str.lower` on the ASCII range. -/
def lowerChar (c : Char) : Char :=
  match c with
  | 'A' => 'a' | 'B' => 'b' | 'C' => 'c' | 'D' => 'd' | 'E' => 'e' | 'F' => 'f'
  | 'G' => 'g' | 'H' => 'h' | 'I' => 'i' | 'J' => 'j' | 'K' => 'k' | 'L' => 'l'
  | 'M' => 'm' | 'N' => 'n' | 'O' => 'o' | 'P' => 'p' | 'Q' => 'q' | 'R' => 'r'
  | 'S' => 's' | 'T' => 't' | 'U' => 'u' | 'V' => 'v' | 'W' => 'w' | 'X' => 'x'
  | 'Y' => 'y' | 'Z' => 'z'
  | c => c

/-- Python `s.lower()`. -/
def pyLower (s : String) : String := ⟨s.data.map lowerChar⟩

/-- Python `s.strip()`: remove leading and trailing whitespace. -/
def pyStrip (s : String) : String :=
  ⟨(((s.data.dropWhile Char.isWhitespace).reverse).dropWhile Char.isWhitespace).reverse⟩

/-- Python `" " in s`. -/
def pyContainsSpace (s : String) : Bool := s.data.contains ' '

/-- Python slicing `s[:n]` for nonnegative `n`. -/
def pyTake (s : String) (n : ℕ) : String := ⟨s.data.take n⟩

/-- Python `int()` applied to a rational: truncation toward zero. -/
def pyInt (q : ℚ) : ℤ := if q < 0 then -(⌊-q⌋) else ⌊q⌋

/-- Python `set.add` on a set modelled as a duplicate-free list:
add the element if it is not already present. -/
def setAdd (s : List String) (x : String) : List String :=
  if x ∈ s then s else s ++ [x]

/-- Python dict lookup `d.get(k)` on a dict modelled as an association list
whose most recent binding comes first. -/
def dictGet (d : List (String × String)) (k : String) : Option String :=
  (d.find? (fun p => p.1 == k)).map (fun p => p.2)

/-- Python dict assignment `d[k] = v`: the new binding shadows any earlier
binding for `k`, so lookups see the last write. -/
def dictSet (d : List (String × String)) (k v : String) : List (String × String) :=
  (k, v) :: d

/-- `get_lighter_color` from src/App.py lines 60-65: per-channel blend of an
RGB triple toward white by the given factor. -/
def get_lighter_color (rgb : ℚ × ℚ × ℚ) (factor : ℚ) : ℚ × ℚ × ℚ :=
  (rgb.1 + (1 - rgb.1) * factor,
   rgb.2.1 + (1 - rgb.2.1) * factor,
   rgb.2.2 + (1 - rgb.2.2) * factor)

/-- `whiteness_factor = 1.0 - repeat_opacity` from src/App.py line 307. -/
def whiteness_factor (repeat_opacity : ℚ) : ℚ := 1 - repeat_opacity

/-- The compiled form of one word library, as built by the preprocessing loop
in src/App.py lines 309-343. -/
structure CompiledLexicon where
  singles_stems : List String
  singles_exact : List String
  phrases : List String
  stem_map : List (String × String)
  exact_map : List (String × String)
deriving DecidableEq

/-- One iteration of the word-compilation loop of src/App.py lines 318-330:
trim the raw term; a term containing a space goes to the phrase list in
original case; otherwise its lowercase goes to the exact set and map, and in
stemming mode its stem additionally goes to the stem set and map. -/
def compileStep (use_stemming : Bool) (stem : String → String)
    (lex : CompiledLexicon) (w : String) : CompiledLexicon :=
  let clean_w := pyStrip w
  if pyContainsSpace clean_w then
    { lex with phrases := lex.phrases ++ [clean_w] }
  else
    let lower_w := pyLower clean_w
    let lex' := { lex with
      singles_exact := setAdd lex.singles_exact lower_w,
      exact_map := dictSet lex.exact_map lower_w clean_w }
    if use_stemming then
      let stem_w := stem lower_w
      { lex' with
        singles_stems := setAdd lex'.singles_stems stem_w,
        stem_map := dictSet lex'.stem_map stem_w clean_w }
    else lex'

/-- The whole compilation loop of src/App.py lines 311-330 over a raw word
list, starting from empty sets and maps. The stemmer is the external NLTK
Snowball stemmer, passed here as a function parameter. -/
def compileLexicon (use_stemming : Bool) (stem : String → String)
    (words : List String) : CompiledLexicon :=
  words.foldl (compileStep use_stemming stem) ⟨[], [], [], [], []⟩

/-- Modelled from the spec: the Morphological Normalizer (§4.2) is the
external NLTK Snowball English stemmer, which is not part of this
repository's source. This model records the documented outputs on the words
used in this development (spec §8: "running"→"run", "ran"→"ran",
"runner"→"runner", and short nouns such as "cat" map to themselves) and is
the identity elsewhere. -/
def stemEn (s : String) : String := if s = "running" then "run" else s

/-- A match event as produced by the token and phrase matchers
(src/App.py lines 362-376 and 396-400): the library it matched in, the
canonical key used for first-seen tracking, the originating lexicon term
looked up in the reverse map, and the literal surface text. -/
structure MatchEvent where
  lib : String
  key : String
  origin : Option String
  surface : String
deriving DecidableEq

/-- The per-token, per-library match decision of src/App.py lines 357-376:
in stemming mode membership of the token's stem in `singles_stems`, otherwise
membership of the lowercased token in `singles_exact`; on a match the origin
is resolved through the corresponding reverse map. -/
def tokenMatchEvent (use_stemming : Bool) (stem : String → String)
    (lib : String) (p : CompiledLexicon) (tok : String) : Option MatchEvent :=
  let current_text_lower := pyLower tok
  if use_stemming then
    let current_stem := stem current_text_lower
    if current_stem ∈ p.singles_stems then
      some ⟨lib, current_stem, dictGet p.stem_map current_stem, tok⟩
    else none
  else
    if current_text_lower ∈ p.singles_exact then
      some ⟨lib, current_text_lower, dictGet p.exact_map current_text_lower, tok⟩
    else none

/-- The match event produced for one phrase occurrence found by the page
search in src/App.py lines 396-410: the key is the lowercased phrase, and the
recorded origin and surface are both the phrase itself. -/
def phraseMatchEvent (lib phrase : String) : MatchEvent :=
  ⟨lib, pyLower phrase, some phrase, phrase⟩

/-- One transition of the first-seen color state machine of src/App.py
lines 378-383 (token path) and 400-406 (phrase path). The per-library seen
sets `global_seen_items` are modelled as one list of (library, key) pairs:
`(l, k) ∈ seen` means `k ∈ global_seen_items[l]`. An unseen key gets the
base color and is recorded; a seen key gets the light color. -/
def colorStateStep (base light : String → ℚ × ℚ × ℚ)
    (seen : List (String × String)) (e : MatchEvent) :
    (ℚ × ℚ × ℚ) × List (String × String) :=
  if (e.lib, e.key) ∈ seen then (light e.lib, seen)
  else (base e.lib, (e.lib, e.key) :: seen)

/-- Run of the color state machine over a list of match events in encounter
order, returning the color chosen for each event and the final seen set. -/
def colorStateRun (base light : String → ℚ × ℚ × ℚ)
    (seen : List (String × String)) :
    List MatchEvent → List (ℚ × ℚ × ℚ) × List (String × String)
  | [] => ([], seen)
  | e :: es =>
    let c := colorStateStep base light seen e
    let rest := colorStateRun base light c.2 es
    (c.1 :: rest.1, rest.2)

/-- Comparison key for the last-write-wins characterisation of the stem map:
the most recently processed single-word origin whose stem is `k`
(the specification's description of the root→origin mapping). -/
def lastOriginForStem (stem : String → String) (words : List String)
    (k : String) : Option String :=
  ((words.map pyStrip).filter
    (fun c => !(pyContainsSpace c) && (stem (pyLower c) == k))).getLast?

section Lemmas

theorem mem_setAdd {s : List String} {x a : String} :
    a ∈ setAdd s x ↔ a = x ∨ a ∈ s := by
  unfold setAdd
  split
  · rename_i h
    constructor
    · exact Or.inr
    · rintro (rfl | ha) <;> [exact h; exact ha]
  · simp [or_comm]

theorem setAdd_mem_self (s : List String) (x : String) : x ∈ setAdd s x := by
  simp [mem_setAdd]

theorem setAdd_subset {s : List String} {a : String} (x : String)
    (h : a ∈ s) : a ∈ setAdd s x := by
  simp [mem_setAdd, h]

theorem dictGet_dictSet (d : List (String × String)) (k v q : String) :
    dictGet (dictSet d k v) q = if q = k then some v else dictGet d q := by
  unfold dictGet dictSet
  by_cases h : q = k
  · subst h
    simp [List.find?]
  · simp only [if_neg h, List.find?]
    have : (k == q) = false := by
      simp [beq_iff_eq]
      exact fun hk => h hk.symm
    simp [this]

theorem compileStep_def (u : Bool) (stem : String → String)
    (lex : CompiledLexicon) (w : String) :
    compileStep u stem lex w =
      if pyContainsSpace (pyStrip w) then
        { lex with phrases := lex.phrases ++ [pyStrip w] }
      else if u then
        { lex with
          singles_exact := setAdd lex.singles_exact (pyLower (pyStrip w)),
          exact_map := dictSet lex.exact_map (pyLower (pyStrip w)) (pyStrip w),
          singles_stems := setAdd lex.singles_stems (stem (pyLower (pyStrip w))),
          stem_map := dictSet lex.stem_map (stem (pyLower (pyStrip w))) (pyStrip w) }
      else
        { lex with
          singles_exact := setAdd lex.singles_exact (pyLower (pyStrip w)),
          exact_map := dictSet lex.exact_map (pyLower (pyStrip w)) (pyStrip w) } := by
  unfold compileStep
  cases h : pyContainsSpace (pyStrip w) <;> cases u <;> simp [h]

theorem compileStep_exact_mono {lex : CompiledLexicon} {a : String}
    (u : Bool) (stem : String → String) (w : String)
    (h : a ∈ lex.singles_exact) :
    a ∈ (compileStep u stem lex w).singles_exact := by
  rw [compileStep_def]
  split_ifs <;> simp only [] <;> first
    | exact h
    | exact setAdd_subset _ h

theorem compileStep_stems_mono {lex : CompiledLexicon} {a : String}
    (u : Bool) (stem : String → String) (w : String)
    (h : a ∈ lex.singles_stems) :
    a ∈ (compileStep u stem lex w).singles_stems := by
  rw [compileStep_def]
  split_ifs <;> simp only [] <;> first
    | exact h
    | exact setAdd_subset _ h

theorem compileStep_phrases_mono {lex : CompiledLexicon} {a : String}
    (u : Bool) (stem : String → String) (w : String)
    (h : a ∈ lex.phrases) :
    a ∈ (compileStep u stem lex w).phrases := by
  rw [compileStep_def]
  split_ifs <;> simp [h]

theorem foldl_compile_exact_mono (u : Bool) (stem : String → String)
    (ws : List String) (acc : CompiledLexicon) {a : String}
    (h : a ∈ acc.singles_exact) :
    a ∈ (ws.foldl (compileStep u stem) acc).singles_exact := by
  induction ws generalizing acc with
  | nil => exact h
  | cons w ws ih => exact ih _ (compileStep_exact_mono u stem w h)

theorem foldl_compile_stems_mono (u : Bool) (stem : String → String)
    (ws : List String) (acc : CompiledLexicon) {a : String}
    (h : a ∈ acc.singles_stems) :
    a ∈ (ws.foldl (compileStep u stem) acc).singles_stems := by
  induction ws generalizing acc with
  | nil => exact h
  | cons w ws ih => exact ih _ (compileStep_stems_mono u stem w h)

theorem foldl_compile_phrases_mono (u : Bool) (stem : String → String)
    (ws : List String) (acc : CompiledLexicon) {a : String}
    (h : a ∈ acc.phrases) :
    a ∈ (ws.foldl (compileStep u stem) acc).phrases := by
  induction ws generalizing acc with
  | nil => exact h
  | cons w ws ih => exact ih _ (compileStep_phrases_mono u stem w h)

end Lemmas

/-- C3: The repeat color is `base + (1 − base) × whiteness` per channel with
whiteness = 1 − opacity; with whiteness 0 it equals the base color, with
whiteness 1 it equals pure white, and for base channels and whiteness in
[0,1] every blended channel stays in [0,1]. -/
theorem C3_color_blend (r g b w opacity : ℚ)
    (hr0 : 0 ≤ r) (hr1 : r ≤ 1) (hg0 : 0 ≤ g) (hg1 : g ≤ 1)
    (hb0 : 0 ≤ b) (hb1 : b ≤ 1) (hw0 : 0 ≤ w) (hw1 : w ≤ 1) :
    get_lighter_color (r, g, b) 0 = (r, g, b) ∧
    get_lighter_color (r, g, b) 1 = (1, 1, 1) ∧
    whiteness_factor opacity = 1 - opacity ∧
    (0 ≤ (get_lighter_color (r, g, b) w).1 ∧ (get_lighter_color (r, g, b) w).1 ≤ 1) ∧
    (0 ≤ (get_lighter_color (r, g, b) w).2.1 ∧ (get_lighter_color (r, g, b) w).2.1 ≤ 1) ∧
    (0 ≤ (get_lighter_color (r, g, b) w).2.2 ∧ (get_lighter_color (r, g, b) w).2.2 ≤ 1) := by
  refine ⟨by simp [get_lighter_color], by simp [get_lighter_color], rfl, ?_, ?_, ?_⟩ <;>
    constructor <;> simp only [get_lighter_color] <;> nlinarith

/-- Witness for C3 at a concrete base color and whiteness. -/
theorem C3_color_blend_witness :
    get_lighter_color (1, 1, 0) 0 = (1, 1, 0) ∧
    get_lighter_color (1, 1, 0) 1 = (1, 1, 1) ∧
    whiteness_factor (4/5) = 1 - 4/5 ∧
    (0 ≤ (get_lighter_color (1, 1, 0) (1/2)).1 ∧ (get_lighter_color (1, 1, 0) (1/2)).1 ≤ 1) ∧
    (0 ≤ (get_lighter_color (1, 1, 0) (1/2)).2.1 ∧ (get_lighter_color (1, 1, 0) (1/2)).2.1 ≤ 1) ∧
    (0 ≤ (get_lighter_color (1, 1, 0) (1/2)).2.2 ∧ (get_lighter_color (1, 1, 0) (1/2)).2.2 ≤ 1) :=
  C3_color_blend 1 1 0 (1/2) (4/5) (by norm_num) (by norm_num) (by norm_num)
    (by norm_num) (by norm_num) (by norm_num) (by norm_num) (by norm_num)

theorem lowerChar_space (c : Char) : lowerChar c = ' ' ↔ c = ' ' := by
  unfold lowerChar
  split <;> simp_all

theorem pyContainsSpace_iff {s : String} :
    pyContainsSpace s = true ↔ ' ' ∈ s.data := by
  unfold pyContainsSpace
  exact List.elem_iff

theorem pyLower_no_space {s : String} (h : pyContainsSpace s = false) :
    pyContainsSpace (pyLower s) = false := by
  rw [Bool.eq_false_iff] at h ⊢
  intro hc
  apply h
  rw [pyContainsSpace_iff] at hc ⊢
  unfold pyLower at hc
  simp only [List.mem_map] at hc
  obtain ⟨c, hc, hlc⟩ := hc
  rw [lowerChar_space] at hlc
  exact hlc ▸ hc

theorem getLast?_cons_eq_or (a : String) (l : List String) :
    (a :: l).getLast? = l.getLast?.or (some a) := by
  cases l with
  | nil => simp
  | cons b bs =>
    rw [List.getLast?_cons_cons]
    cases hg : (b :: bs).getLast? with
    | none => simp [List.getLast?_eq_none_iff] at hg
    | some x => simp

/-- C2: In exact mode a document token T matches a single-word lexicon term W
if and only if lower(T) = lower(W); matching is whole-token set membership,
so the token "scatter" never matches a lexicon containing the term "cat". -/
theorem C2_exact_mode_matching (stem : String → String) (lib W T : String)
    (htrim : pyStrip W = W) (hspace : pyContainsSpace W = false) :
    ((tokenMatchEvent false stem lib (compileLexicon false stem [W]) T).isSome
      ↔ pyLower T = pyLower W) ∧
    tokenMatchEvent false stemEn "lib" (compileLexicon false stemEn ["cat"]) "scatter"
      = none := by
  constructor
  · have hlex : (compileLexicon false stem [W]).singles_exact = [pyLower W] := by
      simp [compileLexicon, compileStep_def, hspace, htrim, setAdd]
    simp only [tokenMatchEvent, hlex, Bool.false_eq_true, if_false, List.mem_singleton]
    by_cases hm : pyLower T = pyLower W <;> simp [hm]
  · decide

/-- Witness for C2 with the term "deep" and the differently-cased token
"Deep", which matches, while "scatter" does not match "cat". -/
theorem C2_exact_mode_matching_witness :
    ((tokenMatchEvent false stemEn "L" (compileLexicon false stemEn ["deep"]) "Deep").isSome
      ↔ pyLower "Deep" = pyLower "deep") ∧
    tokenMatchEvent false stemEn "lib" (compileLexicon false stemEn ["cat"]) "scatter"
      = none :=
  C2_exact_mode_matching stemEn "L" "deep" "Deep" (by decide) (by decide)

theorem stem_map_lastWrite (stem : String → String) (k : String) :
    ∀ (ws : List String) (acc : CompiledLexicon),
      dictGet (ws.foldl (compileStep true stem) acc).stem_map k
        = (lastOriginForStem stem ws k).or (dictGet acc.stem_map k) := by
  intro ws
  induction ws with
  | nil => intro acc; simp [lastOriginForStem]
  | cons w ws ih =>
    intro acc
    rw [List.foldl_cons, ih, compileStep_def]
    by_cases hsp : pyContainsSpace (pyStrip w) = true
    · have hfil : lastOriginForStem stem (w :: ws) k = lastOriginForStem stem ws k := by
        unfold lastOriginForStem
        simp [hsp]
      rw [hfil]
      simp [hsp]
    · rw [Bool.not_eq_true] at hsp
      simp only [hsp, Bool.false_eq_true, if_false, if_true, dictGet_dictSet]
      by_cases hk : k = stem (pyLower (pyStrip w))
      · have hfil : lastOriginForStem stem (w :: ws) k
            = (lastOriginForStem stem ws k).or (some (pyStrip w)) := by
          unfold lastOriginForStem
          simp only [List.map_cons, List.filter_cons, hsp, Bool.not_false, Bool.true_and]
          rw [if_pos (by simp [hk.symm]), getLast?_cons_eq_or]
        rw [hfil, if_pos hk, Option.or_assoc]
        simp
      · have hfil : lastOriginForStem stem (w :: ws) k = lastOriginForStem stem ws k := by
          unfold lastOriginForStem
          simp only [List.map_cons, List.filter_cons, hsp, Bool.not_false, Bool.true_and]
          rw [if_neg (by simp; exact fun h => hk h.symm)]
        rw [hfil, if_neg hk]

/-- C4: the compiler routes each trimmed term with an interior space to the
phrase list in original case and every other term, lowercased, to the exact
set; in stemming mode it also adds the term's root to the stem set and the
root→origin map is last-write-wins: a lookup returns the most recently
processed origin with that root. -/
theorem C4_lexicon_compiler (use_stemming : Bool) (stem : String → String)
    (words : List String) (w : String) (k : String) (hw : w ∈ words) :
    (pyContainsSpace (pyStrip w) = true →
       pyStrip w ∈ (compileLexicon use_stemming stem words).phrases) ∧
    (pyContainsSpace (pyStrip w) = false →
       pyLower (pyStrip w) ∈ (compileLexicon use_stemming stem words).singles_exact ∧
       (use_stemming = true →
         stem (pyLower (pyStrip w)) ∈ (compileLexicon use_stemming stem words).singles_stems)) ∧
    (use_stemming = true →
       dictGet (compileLexicon use_stemming stem words).stem_map k
         = lastOriginForStem stem words k) := by
  obtain ⟨l1, l2, rfl⟩ := List.append_of_mem hw
  have hfold : compileLexicon use_stemming stem (l1 ++ w :: l2)
      = l2.foldl (compileStep use_stemming stem)
          (compileStep use_stemming stem
            (l1.foldl (compileStep use_stemming stem) ⟨[], [], [], [], []⟩) w) := by
    unfold compileLexicon
    rw [List.foldl_append, List.foldl_cons]
  refine ⟨?_, ?_, ?_⟩
  · intro hsp
    rw [hfold]
    apply foldl_compile_phrases_mono
    rw [compileStep_def, if_pos hsp]
    simp
  · intro hsp
    constructor
    · rw [hfold]
      apply foldl_compile_exact_mono
      rw [compileStep_def, if_neg (by simp [hsp])]
      cases use_stemming <;> simp <;> exact setAdd_mem_self _ _
    · intro hu
      subst hu
      rw [hfold]
      apply foldl_compile_stems_mono
      rw [compileStep_def, if_neg (by simp [hsp]), if_pos rfl]
      exact setAdd_mem_self _ _
  · intro hu
    subst hu
    unfold compileLexicon
    rw [stem_map_lastWrite]
    simp [dictGet]

/-- Witness for C4 on the spec's example lexicon ["cat", "deep learning"]. -/
theorem C4_lexicon_compiler_witness :
    (pyContainsSpace (pyStrip "deep learning") = true →
       pyStrip "deep learning"
         ∈ (compileLexicon true stemEn ["cat", "deep learning"]).phrases) ∧
    (pyContainsSpace (pyStrip "deep learning") = false →
       pyLower (pyStrip "deep learning")
         ∈ (compileLexicon true stemEn ["cat", "deep learning"]).singles_exact ∧
       (true = true →
         stemEn (pyLower (pyStrip "deep learning"))
           ∈ (compileLexicon true stemEn ["cat", "deep learning"]).singles_stems)) ∧
    (true = true →
       dictGet (compileLexicon true stemEn ["cat", "deep learning"]).stem_map "cat"
         = lastOriginForStem stemEn ["cat", "deep learning"] "cat") :=
  C4_lexicon_compiler true stemEn ["cat", "deep learning"] "deep learning" "cat" (by decide)

theorem compile_exact_no_space (u : Bool) (stem : String → String)
    (ws : List String) (acc : CompiledLexicon)
    (hacc : ∀ x ∈ acc.singles_exact, pyContainsSpace x = false) :
    ∀ x ∈ (ws.foldl (compileStep u stem) acc).singles_exact,
      pyContainsSpace x = false := by
  induction ws generalizing acc with
  | nil => exact hacc
  | cons w ws ih =>
    rw [List.foldl_cons]
    apply ih
    intro x hx
    rw [compileStep_def] at hx
    by_cases hsp : pyContainsSpace (pyStrip w) = true
    · rw [if_pos hsp] at hx
      exact hacc x hx
    · rw [Bool.not_eq_true] at hsp
      rw [if_neg (by simp [hsp])] at hx
      cases u <;> simp only [Bool.false_eq_true, if_false, if_true] at hx <;>
        rcases mem_setAdd.mp hx with rfl | hx
      · exact pyLower_no_space hsp
      · exact hacc x hx
      · exact pyLower_no_space hsp
      · exact hacc x hx

theorem compile_stems_no_space (u : Bool) (stem : String → String)
    (hstem : ∀ s, pyContainsSpace s = false → pyContainsSpace (stem s) = false)
    (ws : List String) (acc : CompiledLexicon)
    (hacc : ∀ x ∈ acc.singles_stems, pyContainsSpace x = false) :
    ∀ x ∈ (ws.foldl (compileStep u stem) acc).singles_stems,
      pyContainsSpace x = false := by
  induction ws generalizing acc with
  | nil => exact hacc
  | cons w ws ih =>
    rw [List.foldl_cons]
    apply ih
    intro x hx
    rw [compileStep_def] at hx
    by_cases hsp : pyContainsSpace (pyStrip w) = true
    · rw [if_pos hsp] at hx
      exact hacc x hx
    · rw [Bool.not_eq_true] at hsp
      rw [if_neg (by simp [hsp])] at hx
      cases u <;> simp only [Bool.false_eq_true, if_false, if_true] at hx
      · exact hacc x hx
      · rcases mem_setAdd.mp hx with rfl | hx
        · exact hstem _ (pyLower_no_space hsp)
        · exact hacc x hx

theorem compile_phrases_space (u : Bool) (stem : String → String)
    (ws : List String) (acc : CompiledLexicon)
    (hacc : ∀ p ∈ acc.phrases, pyContainsSpace p = true) :
    ∀ p ∈ (ws.foldl (compileStep u stem) acc).phrases,
      pyContainsSpace p = true := by
  induction ws generalizing acc with
  | nil => exact hacc
  | cons w ws ih =>
    rw [List.foldl_cons]
    apply ih
    intro p hp
    rw [compileStep_def] at hp
    by_cases hsp : pyContainsSpace (pyStrip w) = true
    · rw [if_pos hsp] at hp
      rcases List.mem_append.mp hp with hp | hp
      · exact hacc p hp
      · rw [List.mem_singleton] at hp
        exact hp ▸ hsp
    · rw [Bool.not_eq_true] at hsp
      rw [if_neg (by simp [hsp])] at hp
      cases u <;> simp only [Bool.false_eq_true, if_false, if_true] at hp <;> exact hacc p hp

theorem compile_stems_exact_mode (stem : String → String)
    (ws : List String) (acc : CompiledLexicon)
    (hacc : acc.singles_stems = []) :
    (ws.foldl (compileStep false stem) acc).singles_stems = [] := by
  induction ws generalizing acc with
  | nil => exact hacc
  | cons w ws ih =>
    rw [List.foldl_cons]
    apply ih
    rw [compileStep_def]
    by_cases hsp : pyContainsSpace (pyStrip w) = true
    · rw [if_pos hsp]
      exact hacc
    · rw [Bool.not_eq_true] at hsp
      rw [if_neg (by simp [hsp])]
      simp [hacc]

/-- C5 counterexample: the claim that a single-word term appears in exactly
one of exact_set/stem_set fails in stemming mode — for the lexicon ["cat"]
the code puts "cat" in `singles_exact` and its (identical) stem in
`singles_stems` simultaneously (src/App.py lines 324 and 329). -/
theorem C5_counterexample :
    "cat" ∈ (compileLexicon true stemEn ["cat"]).singles_exact ∧
    "cat" ∈ (compileLexicon true stemEn ["cat"]).singles_stems := by decide

/-- C5 amended: every single-word term's lowercase always lands in the exact
set, and in stemming mode its stem additionally lands in the stem set, so in
stemming mode a single word is represented in both structures; in exact mode
the stem set stays empty; phrases (which contain a space) never appear in
either single-word set, whose elements never contain a space. -/
theorem C5_amended (use_stemming : Bool) (stem : String → String)
    (words : List String)
    (hstem : ∀ s, pyContainsSpace s = false → pyContainsSpace (stem s) = false) :
    (∀ w ∈ words, pyContainsSpace (pyStrip w) = false →
       pyLower (pyStrip w) ∈ (compileLexicon use_stemming stem words).singles_exact ∧
       (use_stemming = true →
         stem (pyLower (pyStrip w)) ∈ (compileLexicon use_stemming stem words).singles_stems)) ∧
    (use_stemming = false →
       (compileLexicon use_stemming stem words).singles_stems = []) ∧
    (∀ p ∈ (compileLexicon use_stemming stem words).phrases,
       p ∉ (compileLexicon use_stemming stem words).singles_exact ∧
       p ∉ (compileLexicon use_stemming stem words).singles_stems) := by
  refine ⟨?_, ?_, ?_⟩
  · intro w hw hsp
    exact (C4_lexicon_compiler use_stemming stem words w "" hw).2.1 hsp
  · intro hu
    subst hu
    exact compile_stems_exact_mode stem words _ rfl
  · intro p hp
    have hps : pyContainsSpace p = true :=
      compile_phrases_space use_stemming stem words _ (by simp) p hp
    constructor
    · intro hmem
      have := compile_exact_no_space use_stemming stem words _ (by simp) p hmem
      rw [this] at hps
      exact Bool.false_ne_true hps
    · intro hmem
      have := compile_stems_no_space use_stemming stem hstem words _ (by simp) p hmem
      rw [this] at hps
      exact Bool.false_ne_true hps

/-- Witness for C5 amended on the lexicon ["cat", "deep learning"] with the
modelled stemmer. -/
theorem C5_amended_witness :
    (∀ w ∈ ["cat", "deep learning"], pyContainsSpace (pyStrip w) = false →
       pyLower (pyStrip w)
         ∈ (compileLexicon true stemEn ["cat", "deep learning"]).singles_exact ∧
       (true = true →
         stemEn (pyLower (pyStrip w))
           ∈ (compileLexicon true stemEn ["cat", "deep learning"]).singles_stems)) ∧
    (true = false →
       (compileLexicon true stemEn ["cat", "deep learning"]).singles_stems = []) ∧
    (∀ p ∈ (compileLexicon true stemEn ["cat", "deep learning"]).phrases,
       p ∉ (compileLexicon true stemEn ["cat", "deep learning"]).singles_exact ∧
       p ∉ (compileLexicon true stemEn ["cat", "deep learning"]).singles_stems) :=
  C5_amended true stemEn ["cat", "deep learning"]
    (fun s hs => by
      unfold stemEn
      split
      · decide
      · exact hs)

theorem colorStateRun_length (base light : String → ℚ × ℚ × ℚ)
    (events : List MatchEvent) (seen : List (String × String)) :
    (colorStateRun base light seen events).1.length = events.length := by
  induction events generalizing seen with
  | nil => rfl
  | cons e es ih => simp [colorStateRun, ih]

theorem colorStateRun_seen_subset (base light : String → ℚ × ℚ × ℚ)
    (events : List MatchEvent) (seen : List (String × String))
    {p : String × String} (h : p ∈ seen) :
    p ∈ (colorStateRun base light seen events).2 := by
  induction events generalizing seen with
  | nil => exact h
  | cons e es ih =>
    simp only [colorStateRun, colorStateStep]
    split
    · exact ih _ h
    · exact ih _ (List.mem_cons_of_mem _ h)

theorem colorStateRun_append (base light : String → ℚ × ℚ × ℚ)
    (a b : List MatchEvent) (seen : List (String × String)) :
    (colorStateRun base light seen (a ++ b)).2
      = (colorStateRun base light (colorStateRun base light seen a).2 b).2 := by
  induction a generalizing seen with
  | nil => rfl
  | cons e es ih => simp [colorStateRun, ih]

theorem colorStateRun_seen_src (base light : String → ℚ × ℚ × ℚ)
    (events : List MatchEvent) (seen : List (String × String))
    {p : String × String} (h : p ∈ (colorStateRun base light seen events).2) :
    p ∈ seen ∨ ∃ e ∈ events, (e.lib, e.key) = p := by
  induction events generalizing seen with
  | nil => exact Or.inl h
  | cons e es ih =>
    simp only [colorStateRun, colorStateStep] at h
    by_cases hm : (e.lib, e.key) ∈ seen
    · rw [if_pos hm] at h
      rcases ih _ h with hs | ⟨e', he', hp⟩
      · exact Or.inl hs
      · exact Or.inr ⟨e', List.mem_cons_of_mem _ he', hp⟩
    · rw [if_neg hm] at h
      rcases ih _ h with hs | ⟨e', he', hp⟩
      · rcases List.mem_cons.mp hs with rfl | hs
        · exact Or.inr ⟨e, List.mem_cons_self _ _, rfl⟩
        · exact Or.inl hs
      · exact Or.inr ⟨e', List.mem_cons_of_mem _ he', hp⟩

theorem colorStateRun_get (base light : String → ℚ × ℚ × ℚ)
    (events : List MatchEvent) (seen : List (String × String))
    (L K : String) :
    ∀ (i : ℕ) (hi : i < events.length)
      (hc : i < (colorStateRun base light seen events).1.length),
      (events.get ⟨i, hi⟩).lib = L → (events.get ⟨i, hi⟩).key = K →
      (colorStateRun base light seen events).1.get ⟨i, hc⟩
        = if (L, K) ∈ seen ∨ ∃ e ∈ events.take i, e.lib = L ∧ e.key = K
          then light L else base L := by
  induction events generalizing seen with
  | nil => intro i hi; exact absurd hi (Nat.not_lt_zero i)
  | cons e es ih =>
    intro i hi hc hL hK
    cases i with
    | zero =>
      replace hL : e.lib = L := hL
      replace hK : e.key = K := hK
      simp only [List.take_zero, List.not_mem_nil, false_and, exists_false, or_false]
      have h0 : (colorStateRun base light seen (e :: es)).1.get ⟨0, hc⟩
          = (colorStateStep base light seen e).1 := rfl
      rw [h0]
      simp only [colorStateStep]
      by_cases hm : (e.lib, e.key) ∈ seen
      · rw [if_pos hm, if_pos (hL ▸ hK ▸ hm)]
        show light e.lib = light L
        rw [hL]
      · rw [if_neg hm, if_neg (fun hx => hm (hL ▸ hK ▸ hx))]
        show base e.lib = base L
        rw [hL]
    | succ j =>
      have hj : j < es.length := Nat.lt_of_succ_lt_succ hi
      replace hL : (es.get ⟨j, hj⟩).lib = L := hL
      replace hK : (es.get ⟨j, hj⟩).key = K := hK
      have hjc : j < (colorStateRun base light
          (colorStateStep base light seen e).2 es).1.length := by
        rw [colorStateRun_length]
        exact hj
      have hstep : (colorStateRun base light seen (e :: es)).1.get ⟨j + 1, hc⟩
          = (colorStateRun base light (colorStateStep base light seen e).2 es).1.get
              ⟨j, hjc⟩ := rfl
      rw [hstep, ih _ j hj hjc hL hK]
      apply if_congr _ rfl rfl
      simp only [colorStateStep]
      by_cases hm : (e.lib, e.key) ∈ seen
      · rw [if_pos hm]
        simp only [List.take_succ_cons, List.mem_cons, exists_eq_or_imp]
        constructor
        · intro h
          rcases h with h | h
          · exact Or.inl h
          · exact Or.inr (Or.inr h)
        · rintro (h | ⟨hL', hK'⟩ | h)
          · exact Or.inl h
          · exact Or.inl (hL' ▸ hK' ▸ hm)
          · exact Or.inr h
      · rw [if_neg hm]
        simp only [List.take_succ_cons, List.mem_cons, exists_eq_or_imp,
          Prod.mk.injEq]
        constructor
        · rintro ((⟨h1, h2⟩ | h) | h)
          · exact Or.inr (Or.inl ⟨h1.symm, h2.symm⟩)
          · exact Or.inl h
          · exact Or.inr (Or.inr h)
        · rintro (h | ⟨h1, h2⟩ | h)
          · exact Or.inl (Or.inr h)
          · exact Or.inl (Or.inl ⟨h1.symm, h2.symm⟩)
          · exact Or.inr h

/-- C1: over any run of the first-seen color state machine started from the
empty registry, for every library L and canonical key K the i-th match event
for (L, K) receives the base color exactly when no earlier event carries
(L, K) (and the light color otherwise); after any match for (L, K) the pair
is in the registry, the first match is the one that inserts it (before the
first match it is absent), and the registry only ever grows. -/
theorem C1_first_seen_state_machine (base light : String → ℚ × ℚ × ℚ)
    (events : List MatchEvent) (L K : String) :
    (colorStateRun base light [] events).1.length = events.length ∧
    (∀ (i : ℕ) (hi : i < events.length)
       (hc : i < (colorStateRun base light [] events).1.length),
       (events.get ⟨i, hi⟩).lib = L → (events.get ⟨i, hi⟩).key = K →
       ((colorStateRun base light [] events).1.get ⟨i, hc⟩
          = if ∃ e ∈ events.take i, e.lib = L ∧ e.key = K
            then light L else base L) ∧
       (L, K) ∈ (colorStateRun base light [] (events.take (i + 1))).2 ∧
       ((¬ ∃ e ∈ events.take i, e.lib = L ∧ e.key = K) →
         (L, K) ∉ (colorStateRun base light [] (events.take i)).2)) ∧
    (∀ (n : ℕ) (p : String × String),
       p ∈ (colorStateRun base light [] (events.take n)).2 →
       p ∈ (colorStateRun base light [] (events.take (n + 1))).2) := by
  refine ⟨colorStateRun_length base light events [], ?_, ?_⟩
  · intro i hi hc hL hK
    refine ⟨?_, ?_, ?_⟩
    · rw [colorStateRun_get base light events [] L K i hi hc hL hK]
      simp only [List.not_mem_nil, false_or]
    · rw [← List.take_concat_get events i hi, List.concat_eq_append, colorStateRun_append]
      show (L, K) ∈ (colorStateRun base light _ [events.get ⟨i, hi⟩]).2
      simp only [colorStateRun, colorStateStep]
      by_cases hm : ((events.get ⟨i, hi⟩).lib, (events.get ⟨i, hi⟩).key)
          ∈ (colorStateRun base light [] (events.take i)).2
      · rw [if_pos hm]
        exact hL ▸ hK ▸ hm
      · rw [if_neg hm]
        exact hL ▸ hK ▸ List.mem_cons_self _ _
    · intro hno hmem
      rcases colorStateRun_seen_src base light (events.take i) [] hmem with h | ⟨e, he, hp⟩
      · exact List.not_mem_nil _ h
      · rcases Prod.mk.injEq .. ▸ hp with ⟨h1, h2⟩
        exact hno ⟨e, he, h1, h2⟩
  · intro n p hp
    by_cases hn : n < events.length
    · rw [← List.take_concat_get events n hn, List.concat_eq_append, colorStateRun_append]
      exact colorStateRun_seen_subset base light _ _ hp
    · rw [Nat.not_lt] at hn
      rw [List.take_of_length_le (Nat.le_succ_of_le hn),
        ← List.take_of_length_le hn]
      exact hp

/-- Witness for C1: a two-event stream with the same (library, key); the
second event gets the light color, the pair is registered after the first. -/
theorem C1_first_seen_state_machine_witness :
    ((colorStateRun (fun _ => ((1 : ℚ), 0, 0)) (fun _ => ((1 : ℚ), 1, 1)) []
        [⟨"L", "k", some "o", "run"⟩, ⟨"L", "k", some "o", "ran"⟩]).1.get
          ⟨1, by rw [colorStateRun_length]; decide⟩
        = if ∃ e ∈ ([⟨"L", "k", some "o", "run"⟩, ⟨"L", "k", some "o", "ran"⟩] :
              List MatchEvent).take 1, e.lib = "L" ∧ e.key = "k"
          then ((1 : ℚ), 1, 1) else ((1 : ℚ), 0, 0)) ∧
    ("L", "k") ∈ (colorStateRun (fun _ => ((1 : ℚ), 0, 0)) (fun _ => ((1 : ℚ), 1, 1)) []
        (([⟨"L", "k", some "o", "run"⟩, ⟨"L", "k", some "o", "ran"⟩] :
          List MatchEvent).take 1)).2 := by
  have h := (C1_first_seen_state_machine (fun _ => ((1 : ℚ), 0, 0))
      (fun _ => ((1 : ℚ), 1, 1))
      [⟨"L", "k", some "o", "run"⟩, ⟨"L", "k", some "o", "ran"⟩] "L" "k").2.1
  exact ⟨(h 1 (by decide) (by rw [colorStateRun_length]; decide) rfl rfl).1,
    (h 0 (by decide) (by rw [colorStateRun_length]; decide) rfl rfl).2.1⟩

/-- Lookup in the index aggregator state: Python's
`index_data_by_lib[lib][origin]` becomes an association list keyed by the
(library, origin) pair; updates prepend a shadowing binding and lookups read
the most recent one. -/
def pairGet (idx : List ((String × String) × List String)) (k : String × String) :
    Option (List String) :=
  (idx.find? (fun p => decide (p.1 = k))).map (fun p => p.2)

/-- The index update of src/App.py lines 386-388 and 408-410: on first sight
of an origin its surface set starts empty, then the surface is added. -/
def indexAdd (idx : List ((String × String) × List String)) (k : String × String)
    (s : String) : List ((String × String) × List String) :=
  (k, setAdd ((pairGet idx k).getD []) s) :: idx

/-- Processing of one match event by the index aggregator. The token path
guards with Python truthiness `if origin_word:` (src/App.py line 385), so an
event with a missing or empty origin is skipped; the phrase path always has
a nonempty origin, so the guard is equivalent to the unguarded update of
lines 408-410 there. -/
def indexStep (idx : List ((String × String) × List String)) (e : MatchEvent) :
    List ((String × String) × List String) :=
  match e.origin with
  | some o => if o = "" then idx else indexAdd idx (e.lib, o) e.surface
  | none => idx

/-- The index aggregator run over all match events of a document pass. -/
def indexRun (events : List MatchEvent)
    (idx : List ((String × String) × List String)) :
    List ((String × String) × List String) :=
  events.foldl indexStep idx

theorem pairGet_indexAdd_same (idx : List ((String × String) × List String))
    (k : String × String) (s : String) :
    pairGet (indexAdd idx k s) k = some (setAdd ((pairGet idx k).getD []) s) := by
  simp [pairGet, indexAdd, List.find?]

theorem pairGet_indexAdd_other (idx : List ((String × String) × List String))
    (k k' : String × String) (s : String) (h : k' ≠ k) :
    pairGet (indexAdd idx k s) k' = pairGet idx k' := by
  simp only [pairGet, indexAdd, List.find?]
  rw [decide_eq_false (fun hk : k = k' => h hk.symm)]

theorem setAdd_nodup {l : List String} (s : String) (h : l.Nodup) :
    (setAdd l s).Nodup := by
  unfold setAdd
  split
  · exact h
  · rename_i hs
    simp [List.nodup_append, h, hs]

theorem indexStep_nodup (idx : List ((String × String) × List String))
    (e : MatchEvent)
    (h : ∀ k vs, pairGet idx k = some vs → vs.Nodup) :
    ∀ k vs, pairGet (indexStep idx e) k = some vs → vs.Nodup := by
  intro k vs hvs
  unfold indexStep at hvs
  split at hvs
  · rename_i o ho
    split at hvs
    · exact h k vs hvs
    · by_cases hk : k = (e.lib, o)
      · subst hk
        rw [pairGet_indexAdd_same] at hvs
        cases hvs
        apply setAdd_nodup
        cases hg : pairGet idx (e.lib, o) with
        | none => simp [hg]
        | some vs0 => simpa [hg] using h _ vs0 hg
      · rw [pairGet_indexAdd_other _ _ _ _ hk] at hvs
        exact h k vs hvs
  · exact h k vs hvs

theorem indexRun_nodup (events : List MatchEvent)
    (idx : List ((String × String) × List String))
    (h : ∀ k vs, pairGet idx k = some vs → vs.Nodup) :
    ∀ k vs, pairGet (indexRun events idx) k = some vs → vs.Nodup := by
  induction events generalizing idx with
  | nil => exact h
  | cons e es ih => exact ih _ (indexStep_nodup idx e h)

theorem indexStep_mono (idx : List ((String × String) × List String))
    (e : MatchEvent) (k : String × String) {s : String}
    (h : s ∈ (pairGet idx k).getD []) :
    s ∈ (pairGet (indexStep idx e) k).getD [] := by
  unfold indexStep
  split
  · rename_i o ho
    split
    · exact h
    · by_cases hk : k = (e.lib, o)
      · subst hk
        rw [pairGet_indexAdd_same]
        simp only [Option.getD_some]
        exact setAdd_subset _ h
      · rw [pairGet_indexAdd_other _ _ _ _ hk]
        exact h
  · exact h

theorem indexRun_mono (events : List MatchEvent)
    (idx : List ((String × String) × List String))
    (k : String × String) {s : String}
    (h : s ∈ (pairGet idx k).getD []) :
    s ∈ (pairGet (indexRun events idx) k).getD [] := by
  induction events generalizing idx with
  | nil => exact h
  | cons e es ih => exact ih _ (indexStep_mono idx e k h)

theorem indexRun_complete (events : List MatchEvent)
    (idx : List ((String × String) × List String))
    (e : MatchEvent) (he : e ∈ events) (o : String)
    (ho : e.origin = some o) (hne : o ≠ "") :
    e.surface ∈ (pairGet (indexRun events idx) (e.lib, o)).getD [] := by
  obtain ⟨l1, l2, rfl⟩ := List.append_of_mem he
  unfold indexRun
  rw [List.foldl_append, List.foldl_cons]
  show e.surface ∈ (pairGet (indexRun l2 (indexStep (indexRun l1 idx) e)) (e.lib, o)).getD []
  apply indexRun_mono
  unfold indexStep
  rw [ho]
  simp only [if_neg hne]
  rw [pairGet_indexAdd_same]
  simp only [Option.getD_some]
  exact setAdd_mem_self _ _

theorem indexRun_sound (M : MatchEvent → Prop) :
    ∀ (events : List MatchEvent) (idx : List ((String × String) × List String)),
      (∀ e ∈ events, M e) →
      (∀ k vs, pairGet idx k = some vs →
        (∃ e, M e ∧ e.lib = k.1 ∧ e.origin = some k.2 ∧ k.2 ≠ "") ∧
        (∀ s ∈ vs, ∃ e, M e ∧ e.lib = k.1 ∧ e.origin = some k.2 ∧ e.surface = s)) →
      ∀ k vs, pairGet (indexRun events idx) k = some vs →
        (∃ e, M e ∧ e.lib = k.1 ∧ e.origin = some k.2 ∧ k.2 ≠ "") ∧
        (∀ s ∈ vs, ∃ e, M e ∧ e.lib = k.1 ∧ e.origin = some k.2 ∧ e.surface = s) := by
  intro events
  induction events with
  | nil => intro idx _ h; exact h
  | cons e es ih =>
    intro idx hM h
    apply ih _ (fun e' he' => hM e' (List.mem_cons_of_mem _ he'))
    intro k vs hvs
    have hMe : M e := hM e (List.mem_cons_self _ _)
    unfold indexStep at hvs
    split at hvs
    · rename_i o ho
      split at hvs
      · exact h k vs hvs
      · rename_i hne
        by_cases hk : k = (e.lib, o)
        · subst hk
          rw [pairGet_indexAdd_same] at hvs
          cases hvs
          constructor
          · exact ⟨e, hMe, rfl, ho, hne⟩
          · intro s hs
            rcases mem_setAdd.mp hs with rfl | hs
            · exact ⟨e, hMe, rfl, ho, rfl⟩
            · cases hg : pairGet idx (e.lib, o) with
              | none => rw [hg] at hs; simp at hs
              | some vs0 =>
                rw [hg] at hs
                simp only [Option.getD_some] at hs
                exact (h _ vs0 hg).2 s hs
        · rw [pairGet_indexAdd_other _ _ _ _ hk] at hvs
          exact h k vs hvs
    · exact h k vs hvs

/-- C6: the index aggregator maintains, per library, a mapping from origin
term to the set of distinct observed surface strings: recorded sets are
duplicate-free; every match event with a truthy origin has its surface
recorded under (library, origin); every recorded surface comes from such an
event; and an origin with zero matches never appears in the mapping. -/
theorem C6_index_aggregator (events : List MatchEvent) (lib o : String) :
    (∀ k vs, pairGet (indexRun events []) k = some vs → vs.Nodup) ∧
    (∀ e ∈ events, e.origin = some o → o ≠ "" → e.lib = lib →
       e.surface ∈ (pairGet (indexRun events []) (lib, o)).getD []) ∧
    (∀ vs, pairGet (indexRun events []) (lib, o) = some vs →
       (∃ e, e ∈ events ∧ e.lib = lib ∧ e.origin = some o ∧ o ≠ "") ∧
       (∀ s ∈ vs, ∃ e, e ∈ events ∧ e.lib = lib ∧ e.origin = some o ∧ e.surface = s)) := by
  refine ⟨?_, ?_, ?_⟩
  · exact indexRun_nodup events [] (by simp [pairGet])
  · intro e he ho hne hlib
    have := indexRun_complete events [] e he o ho hne
    rw [hlib] at this
    exact this
  · intro vs hvs
    exact indexRun_sound (· ∈ events) events [] (fun _ h => h)
      (by simp [pairGet]) (lib, o) vs hvs

/-- Witness for C6 on two token events sharing the origin "run" with distinct
surfaces. -/
theorem C6_index_aggregator_witness :
    (∀ k vs, pairGet (indexRun
        [⟨"L", "run", some "run", "running"⟩, ⟨"L", "run", some "run", "ran"⟩] []) k
          = some vs → vs.Nodup) ∧
    (∀ e ∈ ([⟨"L", "run", some "run", "running"⟩, ⟨"L", "run", some "run", "ran"⟩] :
        List MatchEvent), e.origin = some "run" → "run" ≠ "" → e.lib = "L" →
       e.surface ∈ (pairGet (indexRun
         [⟨"L", "run", some "run", "running"⟩, ⟨"L", "run", some "run", "ran"⟩] [])
           ("L", "run")).getD []) ∧
    (∀ vs, pairGet (indexRun
        [⟨"L", "run", some "run", "running"⟩, ⟨"L", "run", some "run", "ran"⟩] [])
          ("L", "run") = some vs →
       (∃ e, e ∈ ([⟨"L", "run", some "run", "running"⟩,
          ⟨"L", "run", some "run", "ran"⟩] : List MatchEvent) ∧ e.lib = "L" ∧
          e.origin = some "run" ∧ "run" ≠ "") ∧
       (∀ s ∈ vs, ∃ e, e ∈ ([⟨"L", "run", some "run", "running"⟩,
          ⟨"L", "run", some "run", "ran"⟩] : List MatchEvent) ∧ e.lib = "L" ∧
          e.origin = some "run" ∧ e.surface = s)) :=
  C6_index_aggregator
    [⟨"L", "run", some "run", "running"⟩, ⟨"L", "run", some "run", "ran"⟩] "L" "run"

/-- Inputs of the index page layout engine of src/App.py lines 424-444: the
dimensions of the appended page, the user's column count and font size, and
the show-variants flag. Margins (40, 50) and the column gap (15) are the
code's literals. -/
structure LayoutConfig where
  pageWidth : ℚ
  pageHeight : ℚ
  colCount : ℕ
  fontSize : ℚ
  showVariants : Bool

/-- `col_width` from src/App.py line 431. -/
def colWidth (c : LayoutConfig) : ℚ :=
  (c.pageWidth - 2 * 40 - ((c.colCount : ℚ) - 1) * 15) / (c.colCount : ℚ)

/-- `line_height` from src/App.py line 433. -/
def lineHeight (c : LayoutConfig) : ℚ := c.fontSize * 1.5

/-- `header_height` from src/App.py line 434. -/
def headerHeight (c : LayoutConfig) : ℚ := c.fontSize * 2

/-- `title_font_size` from src/App.py line 435. -/
def titleFontSize (c : LayoutConfig) : ℚ := c.fontSize + 8

/-- `lib_title_font_size` from src/App.py line 436. -/
def libTitleFontSize (c : LayoutConfig) : ℚ := c.fontSize + 2

/-- `var_font_size = max(6, idx_font_size - 2)` from src/App.py line 437. -/
def varFontSize (c : LayoutConfig) : ℚ := max 6 (c.fontSize - 2)

/-- `truncation_limit` from src/App.py lines 439-441, clamped to 5. -/
def truncationLimit (c : LayoutConfig) : ℤ :=
  if pyInt (colWidth c / (c.fontSize * 0.55)) - 2 < 5 then 5
  else pyInt (colWidth c / (c.fontSize * 0.55)) - 2

/-- `var_truncation_limit` from src/App.py lines 443-444 — note: no clamp. -/
def varTruncationLimit (c : LayoutConfig) : ℤ :=
  pyInt (colWidth c / (varFontSize c * 0.55)) - 4

/-- C8 counterexample: the variant-line truncation limit is not clamped; at
page width 100 with 4 columns and font size 10 the column width is negative
and `var_truncation_limit` evaluates to a negative number, while the claim
says both limits are always positive. -/
theorem C8_counterexample : varTruncationLimit ⟨100, 842, 4, 10, true⟩ < 0 := by
  have h1 : colWidth ⟨100, 842, 4, 10, true⟩ = -25 / 4 := by norm_num [colWidth]
  have h2 : varFontSize ⟨100, 842, 4, 10, true⟩ = 8 := by norm_num [varFontSize]
  unfold varTruncationLimit
  rw [h1, h2]
  have h3 : ((-25 / 4 : ℚ) / (8 * 0.55)) = -125 / 88 := by norm_num
  rw [h3]
  unfold pyInt
  rw [if_pos (by norm_num)]
  have h4 : (⌊(-(-125 / 88) : ℚ)⌋ : ℤ) = 1 := by
    rw [show (-(-125 / 88) : ℚ) = 125 / 88 by norm_num]
    rw [Int.floor_eq_iff]
    norm_num
  rw [h4]
  norm_num

theorem pyInt_ge_five {q : ℚ} (h : 5 ≤ q) : 5 ≤ pyInt q := by
  unfold pyInt
  rw [if_neg (by linarith)]
  rw [Int.le_floor]
  exact_mod_cast h

/-- C8 amended: only the entry truncation limit is clamped (to the minimum 5,
for every configuration); the variant-line limit has no clamp and can go
negative for pathological page widths, but with the fixed A4 page width 595
that the code actually uses and any valid column count (1-4) and font size
(8-16) it stays positive. -/
theorem C8_amended (c : LayoutConfig)
    (hW : c.pageWidth = 595) (hcc1 : 1 ≤ c.colCount) (hcc4 : c.colCount ≤ 4)
    (hf8 : 8 ≤ c.fontSize) (hf16 : c.fontSize ≤ 16) :
    (∀ c' : LayoutConfig, 5 ≤ truncationLimit c') ∧ 0 < varTruncationLimit c := by
  constructor
  · intro c'
    unfold truncationLimit
    split <;> omega
  · have hcw : (117.5 : ℚ) ≤ colWidth c := by
      rcases c with ⟨W, H, cc, fs, sv⟩
      simp only at hW hcc1 hcc4 ⊢
      subst hW
      unfold colWidth
      simp only
      interval_cases cc <;> norm_num
    have hv6 : (6 : ℚ) ≤ varFontSize c := le_max_left _ _
    have hv14 : varFontSize c ≤ 14 := by
      apply max_le (by norm_num)
      linarith
    have hd0 : (0 : ℚ) < varFontSize c * 0.55 := by nlinarith
    have hd : varFontSize c * 0.55 ≤ 7.7 := by nlinarith
    have hq : (5 : ℚ) ≤ colWidth c / (varFontSize c * 0.55) := by
      rw [le_div_iff₀ hd0]
      nlinarith
    have := pyInt_ge_five hq
    unfold varTruncationLimit
    omega

/-- Witness for C8 amended at the default configuration (A4 width, 4 columns,
font size 10). -/
theorem C8_amended_witness :
    (∀ c' : LayoutConfig, 5 ≤ truncationLimit c') ∧
    0 < varTruncationLimit ⟨595, 842, 4, 10, true⟩ :=
  C8_amended ⟨595, 842, 4, 10, true⟩ (by norm_num) (by norm_num) (by norm_num)
    (by norm_num) (by norm_num)

/-- Lexicographic code-point comparison of character lists, the order Python
uses to compare strings. -/
def charListLe : List Char → List Char → Bool
  | [], _ => true
  | _ :: _, [] => false
  | a :: as, b :: bs => if a < b then true else if b < a then false else charListLe as bs

/-- Python string `<=` on the code-point order. -/
def pyStrLe (a b : String) : Bool := charListLe a.data b.data

/-- Insertion into a sorted list, the building block of the sorting model. -/
def insSorted (le : String → String → Bool) (x : String) :
    List String → List String
  | [] => [x]
  | y :: ys => if le x y then x :: y :: ys else y :: insSorted le x ys

/-- Python `sorted` modelled as insertion sort with the given comparison. -/
def sortStrs (le : String → String → Bool) (l : List String) : List String :=
  l.foldr (insSorted le) []

/-- `display_variations` from src/App.py lines 470-474: when variants are
shown, the surfaces differing from the origin case-insensitively,
deduplicated and sorted. -/
def displayVariations (showV : Bool) (origin : String) (surfaces : List String) :
    List String :=
  if showV then
    sortStrs pyStrLe ((surfaces.filter (fun v => pyLower v != pyLower origin)).dedup)
  else []

/-- One step of the variant word-wrap loop of src/App.py lines 478-486. The
Bool records whether at least one variant was already processed (Python's
`i > 0`, which selects the `", "` separator and the flushed trailing comma).
When the line would exceed the limit it is flushed and the variant starts a
new indented line, otherwise the variant is appended to the current line.
The final line always receives the closing parenthesis (lines 487-488). -/
def buildVarLinesGo (limit : ℤ) :
    Bool → String → List String → List String → List String
  | _, cur, acc, [] => acc ++ [cur ++ ")"]
  | false, cur, acc, v :: vs =>
    if limit < ((cur ++ v).length : ℤ) then
      buildVarLinesGo limit true ("  " ++ v) (acc ++ [cur]) vs
    else
      buildVarLinesGo limit true (cur ++ v) acc vs
  | true, cur, acc, v :: vs =>
    if limit < ((cur ++ ", " ++ v).length : ℤ) then
      buildVarLinesGo limit true ("  " ++ v) (acc ++ [cur ++ ","]) vs
    else
      buildVarLinesGo limit true (cur ++ ", " ++ v) acc vs

/-- `var_lines` built from a nonempty variant list (src/App.py lines 476-488),
starting from the opening parenthesis. -/
def buildVarLines (limit : ℤ) (vars : List String) : List String :=
  buildVarLinesGo limit false "(" [] vars

theorem buildVarLinesGo_acc_sub (limit : ℤ) :
    ∀ (vars : List String) (isLater : Bool) (cur : String) (acc : List String),
      ∀ l ∈ acc, l ∈ buildVarLinesGo limit isLater cur acc vars := by
  intro vars
  induction vars with
  | nil =>
    intro isLater cur acc l hl
    cases isLater <;> exact List.mem_append_left _ hl
  | cons v vs ih =>
    intro isLater cur acc l hl
    cases isLater <;> simp only [buildVarLinesGo] <;> split <;>
      first
        | exact ih true _ _ l (List.mem_append_left _ hl)
        | exact ih true _ _ l hl

theorem buildVarLinesGo_cur_infix (limit : ℤ) :
    ∀ (vars : List String) (isLater : Bool) (cur : String) (acc : List String),
      ∃ l ∈ buildVarLinesGo limit isLater cur acc vars, cur.data <:+: l.data := by
  intro vars
  induction vars with
  | nil =>
    intro isLater cur acc
    refine ⟨cur ++ ")", ?_, ?_⟩
    · cases isLater <;> exact List.mem_append_right _ (List.mem_singleton_self _)
    · rw [String.data_append]
      exact (List.prefix_append _ _).isInfix
  | cons v vs ih =>
    intro isLater cur acc
    cases isLater <;> simp only [buildVarLinesGo] <;> split
    · exact ⟨cur, buildVarLinesGo_acc_sub limit vs true _ _ cur
        (List.mem_append_right _ (List.mem_singleton_self _)), List.infix_rfl⟩
    · obtain ⟨l, hl, hinf⟩ := ih true (cur ++ v) acc
      refine ⟨l, hl, List.IsInfix.trans ?_ hinf⟩
      rw [String.data_append]
      exact (List.prefix_append _ _).isInfix
    · refine ⟨cur ++ ",", buildVarLinesGo_acc_sub limit vs true _ _ _
        (List.mem_append_right _ (List.mem_singleton_self _)), ?_⟩
      rw [String.data_append]
      exact (List.prefix_append _ _).isInfix
    · obtain ⟨l, hl, hinf⟩ := ih true (cur ++ ", " ++ v) acc
      refine ⟨l, hl, List.IsInfix.trans ?_ hinf⟩
      rw [String.data_append, String.data_append]
      exact ((List.prefix_append _ _).trans (List.prefix_append _ _)).isInfix

theorem buildVarLinesGo_var_infix (limit : ℤ) :
    ∀ (vars : List String) (isLater : Bool) (cur : String) (acc : List String),
      ∀ v ∈ vars, ∃ l ∈ buildVarLinesGo limit isLater cur acc vars,
        v.data <:+: l.data := by
  intro vars
  induction vars with
  | nil =>
    intro _ _ _ v hv
    exact absurd hv (List.not_mem_nil v)
  | cons v0 vs ih =>
    intro isLater cur acc v hv
    rcases List.mem_cons.mp hv with rfl | hv
    · cases isLater <;> simp only [buildVarLinesGo] <;> split
      · obtain ⟨l, hl, hinf⟩ := buildVarLinesGo_cur_infix limit vs true ("  " ++ v) _
        refine ⟨l, hl, List.IsInfix.trans ?_ hinf⟩
        rw [String.data_append]
        exact (List.suffix_append _ _).isInfix
      · obtain ⟨l, hl, hinf⟩ := buildVarLinesGo_cur_infix limit vs true (cur ++ v) acc
        refine ⟨l, hl, List.IsInfix.trans ?_ hinf⟩
        rw [String.data_append]
        exact (List.suffix_append _ _).isInfix
      · obtain ⟨l, hl, hinf⟩ := buildVarLinesGo_cur_infix limit vs true ("  " ++ v) _
        refine ⟨l, hl, List.IsInfix.trans ?_ hinf⟩
        rw [String.data_append]
        exact (List.suffix_append _ _).isInfix
      · obtain ⟨l, hl, hinf⟩ := buildVarLinesGo_cur_infix limit vs true
          (cur ++ ", " ++ v) acc
        refine ⟨l, hl, List.IsInfix.trans ?_ hinf⟩
        rw [String.data_append]
        exact (List.suffix_append _ _).isInfix
    · cases isLater <;> simp only [buildVarLinesGo] <;> split <;> exact ih true _ _ v hv

/-- C9: the variant word-wrap breaks lines only between variants — every
variant occurs contiguously (as an infix) in some rendered line, so variants
are never shortened, and a variant longer than the variant truncation limit
forces its rendered line to exceed that limit. -/
theorem C9_variant_wrap (limit : ℤ) (vars : List String) (v : String)
    (hv : v ∈ vars) :
    ∃ l ∈ buildVarLines limit vars, v.data <:+: l.data ∧
      (limit < (v.length : ℤ) → limit < (l.length : ℤ)) := by
  obtain ⟨l, hl, hinf⟩ := buildVarLinesGo_var_infix limit vars false "(" [] v hv
  refine ⟨l, hl, hinf, fun hlen => ?_⟩
  have hle := hinf.length_le
  have hv' : v.length = v.data.length := rfl
  have hl' : l.length = l.data.length := rfl
  omega

/-- Witness for C9: one variant of length 8 with limit 5 still appears whole
in a rendered line, which therefore exceeds the limit. -/
theorem C9_variant_wrap_witness :
    ∃ l ∈ buildVarLines 5 ["abcdefgh"], "abcdefgh".data <:+: l.data ∧
      (5 < ("abcdefgh".length : ℤ) → 5 < (l.length : ℤ)) :=
  C9_variant_wrap 5 ["abcdefgh"] "abcdefgh" (List.mem_singleton_self _)

/-- One rendered text placement on an index page: the index page number
(0 = first appended page), the insertion position handed to `insert_text`,
the literal text, and the font size (the color is not modelled). -/
structure Placement where
  page : ℕ
  x : ℚ
  y : ℚ
  text : String
  size : ℚ
deriving DecidableEq

/-- The layout cursor of src/App.py lines 446-447 plus the current page and
the placements made so far, in order. -/
structure LState where
  page : ℕ
  col : ℕ
  y : ℚ
  out : List Placement
deriving DecidableEq

/-- The overflow check of src/App.py lines 456-462 and 494-500: if the item
does not fit in the remaining column height, advance to the next column at
the top margin, and when the columns are exhausted start a new page at
column 0. -/
def advanceIfNeeded (c : LayoutConfig) (needed : ℚ) (st : LState) : LState :=
  if c.pageHeight - 50 < st.y + needed then
    if c.colCount ≤ st.col + 1 then
      { st with page := st.page + 1, col := 0, y := 50 }
    else
      { st with col := st.col + 1, y := 50 }
  else st

/-- `current_x = margin_x + current_col * (col_width + col_gap)`
(src/App.py lines 463 and 500). -/
def colX (c : LayoutConfig) (col : ℕ) : ℚ := 40 + (col : ℚ) * (colWidth c + 15)

/-- Record one `insert_text` call on the current page. -/
def emit (st : LState) (x y : ℚ) (text : String) (size : ℚ) : LState :=
  { st with out := st.out ++ [⟨st.page, x, y, text, size⟩] }

/-- `var_lines` of one origin entry (src/App.py lines 476-488): empty when no
variants are displayed. -/
def varLinesOf (c : LayoutConfig) (origin : String) (surfaces : List String) :
    List String :=
  if (displayVariations c.showVariants origin surfaces).isEmpty then []
  else buildVarLines (varTruncationLimit c)
    (displayVariations c.showVariants origin surfaces)

/-- `item_height` of one origin entry (src/App.py lines 490-492). -/
def itemHeightOf (c : LayoutConfig) (origin : String) (surfaces : List String) : ℚ :=
  lineHeight c + ((varLinesOf c origin surfaces).length : ℚ) * lineHeight c

/-- `display_word` of src/App.py lines 502-503: the origin itself when it is
shorter than the truncation limit, otherwise its prefix plus an ellipsis. -/
def displayWordOf (c : LayoutConfig) (origin : String) : String :=
  if (origin.length : ℤ) < truncationLimit c then origin
  else pyTake origin (truncationLimit c).toNat ++ "..."

/-- Dict lookup `words_dict[origin_word]` of the surface set of one origin. -/
def entrySurfaces (entries : List (String × List String)) (origin : String) :
    List String :=
  ((entries.find? (fun p => p.1 == origin)).map (fun p => p.2)).getD []

/-- Placement of one variant line (src/App.py lines 508-511): indented by 10,
then the cursor moves one line down. -/
def placeVarLine (c : LayoutConfig) (x : ℚ) (s : LState) (v : String) : LState :=
  { (emit s (x + 10) s.y v (varFontSize c)) with y := s.y + lineHeight c }

/-- Layout of one origin entry (src/App.py lines 469-511): compute the
variant lines and the item height, run the overflow check, place the
(possibly truncated) term at the column position, move one line down, then
place each variant line. -/
def placeOrigin (c : LayoutConfig) (entries : List (String × List String))
    (st : LState) (origin : String) : LState :=
  let surfaces := entrySurfaces entries origin
  let st1 := advanceIfNeeded c (itemHeightOf c origin surfaces) st
  let st2 := { (emit st1 (colX c st1.col) st1.y ("  " ++ displayWordOf c origin)
                  c.fontSize) with y := st1.y + lineHeight c }
  (varLinesOf c origin surfaces).foldl (placeVarLine c (colX c st1.col)) st2

/-- Layout of one library section (src/App.py lines 451-513): overflow check
for the header plus one line, place the section header, advance by the
header height, lay out the origins sorted case-insensitively, then add a
half-line gap. -/
def placeLib (c : LayoutConfig) (st : LState) (lib : String)
    (entries : List (String × List String)) : LState :=
  let st1 := advanceIfNeeded c (headerHeight c + lineHeight c) st
  let st2 := { (emit st1 (colX c st1.col) st1.y ("■ " ++ lib)
                  (libTitleFontSize c)) with y := st1.y + headerHeight c }
  let st3 := (sortStrs (fun a b => pyStrLe (pyLower a) (pyLower b))
      (entries.map Prod.fst)).foldl (placeOrigin c entries) st2
  { st3 with y := st3.y + lineHeight c / 2 }

/-- The whole index layout pass (src/App.py lines 446-513): the title at the
fixed position (40, 30) on the first index page, then each selected library
with a nonempty matched-words dict, in order, skipping empty ones. -/
def layoutIndex (c : LayoutConfig)
    (data : List (String × List (String × List String))) : List Placement :=
  (data.foldl
    (fun (st : LState) (p : String × List (String × List String)) =>
      if p.2.isEmpty then st else placeLib c st p.1 p.2)
    ⟨0, 0, 50, [⟨0, 40, 30, "Index of Words", titleFontSize c⟩]⟩).out

theorem mem_insSorted (le : String → String → Bool) (x a : String) :
    ∀ l : List String, a ∈ insSorted le x l ↔ a = x ∨ a ∈ l := by
  intro l
  induction l with
  | nil => simp [insSorted]
  | cons y ys ih =>
    unfold insSorted
    split
    · simp
    · rw [List.mem_cons, ih, List.mem_cons]
      tauto

theorem mem_sortStrs (le : String → String → Bool) (l : List String) (a : String) :
    a ∈ sortStrs le l ↔ a ∈ l := by
  induction l with
  | nil => simp [sortStrs]
  | cons y ys ih =>
    unfold sortStrs at *
    rw [List.foldr_cons, mem_insSorted, ih, List.mem_cons]

theorem advanceIfNeeded_out (c : LayoutConfig) (n : ℚ) (st : LState) :
    (advanceIfNeeded c n st).out = st.out := by
  unfold advanceIfNeeded
  split_ifs <;> rfl

theorem advanceIfNeeded_col (c : LayoutConfig) (n : ℚ) (st : LState)
    (hcc : 1 ≤ c.colCount) (h : st.col < c.colCount) :
    (advanceIfNeeded c n st).col < c.colCount := by
  unfold advanceIfNeeded
  split_ifs with h1 h2
  · show 0 < c.colCount
    omega
  · show st.col + 1 < c.colCount
    omega
  · exact h

theorem advanceIfNeeded_y_low (c : LayoutConfig) (n : ℚ) (st : LState)
    (h : 50 ≤ st.y) : 50 ≤ (advanceIfNeeded c n st).y := by
  unfold advanceIfNeeded
  split_ifs <;> first | exact le_refl _ | exact h

theorem advanceIfNeeded_fit (c : LayoutConfig) (n : ℚ) (st : LState)
    (hn : n ≤ c.pageHeight - 100) :
    (advanceIfNeeded c n st).y + n ≤ c.pageHeight - 50 := by
  unfold advanceIfNeeded
  split_ifs with h1 h2
  · show (50 : ℚ) + n ≤ _
    linarith
  · show (50 : ℚ) + n ≤ _
    linarith
  · exact not_lt.mp h1

/-- A placement position inside the margin box, the containment property the
specification asserts for index-page text. -/
def inBounds (c : LayoutConfig) (p : Placement) : Prop :=
  40 ≤ p.x ∧ p.x ≤ c.pageWidth - 40 ∧ 50 ≤ p.y ∧ p.y ≤ c.pageHeight - 50

/-- All placements so far are the title or lie inside the margin box. -/
def outOk (c : LayoutConfig) (out : List Placement) : Prop :=
  ∀ p ∈ out, p.text = "Index of Words" ∨ inBounds c p

theorem colX_bounds (c : LayoutConfig) (hcw : 10 ≤ colWidth c)
    {col : ℕ} (hcol : col < c.colCount) :
    40 ≤ colX c col ∧ colX c col + 10 ≤ c.pageWidth - 40 := by
  have hcast : ((col : ℚ)) + 1 ≤ (c.colCount : ℚ) := by exact_mod_cast hcol
  have hcol' : (col : ℚ) ≤ (c.colCount : ℚ) - 1 := by linarith
  have h0 : (0 : ℚ) ≤ (col : ℚ) := by positivity
  have hccq : (0 : ℚ) < (c.colCount : ℚ) := by linarith
  have hW : colWidth c * (c.colCount : ℚ)
      = c.pageWidth - 80 - ((c.colCount : ℚ) - 1) * 15 := by
    unfold colWidth
    field_simp
    ring_nf
  constructor
  · unfold colX
    nlinarith
  · unfold colX
    have h1 : (col : ℚ) * (colWidth c + 15)
        ≤ ((c.colCount : ℚ) - 1) * (colWidth c + 15) :=
      mul_le_mul_of_nonneg_right hcol' (by linarith)
    nlinarith [h1, hW]

theorem varFold_good (c : LayoutConfig) (x : ℚ)
    (hx1 : 40 ≤ x) (hx2 : x + 10 ≤ c.pageWidth - 40) (hlh : 0 ≤ lineHeight c) :
    ∀ (vls : List String) (st : LState),
      outOk c st.out → 50 ≤ st.y →
      st.y + (vls.length : ℚ) * lineHeight c ≤ c.pageHeight - 50 + lineHeight c →
      outOk c (vls.foldl (placeVarLine c x) st).out ∧
      50 ≤ (vls.foldl (placeVarLine c x) st).y ∧
      (vls.foldl (placeVarLine c x) st).col = st.col ∧
      (vls.foldl (placeVarLine c x) st).page = st.page := by
  intro vls
  induction vls with
  | nil =>
    intro st h1 h2 _
    exact ⟨h1, h2, rfl, rfl⟩
  | cons v vs ih =>
    intro st h1 h2 h3
    have hlen : ((v :: vs).length : ℚ) = (vs.length : ℚ) + 1 := by
      rw [List.length_cons]
      push_cast
      ring
    rw [hlen] at h3
    have hvs0 : (0 : ℚ) ≤ (vs.length : ℚ) * lineHeight c := by positivity
    have hyb : st.y ≤ c.pageHeight - 50 := by nlinarith
    rw [List.foldl_cons]
    have hstep := ih (placeVarLine c x st v) ?_ ?_ ?_
    · exact ⟨hstep.1, hstep.2.1, hstep.2.2.1, hstep.2.2.2⟩
    · intro p hp
      rcases List.mem_append.mp hp with hp | hp
      · exact h1 p hp
      · rw [List.mem_singleton] at hp
        subst hp
        refine Or.inr ⟨?_, ?_, ?_, ?_⟩
        · show (40 : ℚ) ≤ x + 10
          linarith
        · show x + 10 ≤ c.pageWidth - 40
          linarith
        · exact h2
        · exact hyb
    · show 50 ≤ st.y + lineHeight c
      linarith
    · show st.y + lineHeight c + (vs.length : ℚ) * lineHeight c
        ≤ c.pageHeight - 50 + lineHeight c
      linarith

theorem placeOrigin_eq (c : LayoutConfig) (entries : List (String × List String))
    (st : LState) (origin : String) :
    placeOrigin c entries st origin
      = (varLinesOf c origin (entrySurfaces entries origin)).foldl
          (placeVarLine c (colX c (advanceIfNeeded c
            (itemHeightOf c origin (entrySurfaces entries origin)) st).col))
          { (emit (advanceIfNeeded c
                (itemHeightOf c origin (entrySurfaces entries origin)) st)
              (colX c (advanceIfNeeded c
                (itemHeightOf c origin (entrySurfaces entries origin)) st).col)
              (advanceIfNeeded c
                (itemHeightOf c origin (entrySurfaces entries origin)) st).y
              ("  " ++ displayWordOf c origin) c.fontSize) with
              y := (advanceIfNeeded c
                (itemHeightOf c origin (entrySurfaces entries origin)) st).y
                  + lineHeight c } := rfl

theorem placeOrigin_good (c : LayoutConfig) (entries : List (String × List String))
    (st : LState) (origin : String)
    (hcc : 1 ≤ c.colCount) (hcw : 10 ≤ colWidth c) (hfs : 0 ≤ c.fontSize)
    (hitem : itemHeightOf c origin (entrySurfaces entries origin)
      ≤ c.pageHeight - 100)
    (hok : outOk c st.out) (hy : 50 ≤ st.y) (hcol : st.col < c.colCount) :
    outOk c (placeOrigin c entries st origin).out ∧
    50 ≤ (placeOrigin c entries st origin).y ∧
    (placeOrigin c entries st origin).col < c.colCount := by
  have hlh : 0 ≤ lineHeight c := mul_nonneg hfs (by norm_num)
  rw [placeOrigin_eq]
  set st1 := advanceIfNeeded c
    (itemHeightOf c origin (entrySurfaces entries origin)) st with hst1
  have hout1 : st1.out = st.out := advanceIfNeeded_out c _ st
  have hy1 : 50 ≤ st1.y := advanceIfNeeded_y_low c _ st hy
  have hcol1 : st1.col < c.colCount := advanceIfNeeded_col c _ st hcc hcol
  have hfit : st1.y + itemHeightOf c origin (entrySurfaces entries origin)
      ≤ c.pageHeight - 50 := advanceIfNeeded_fit c _ st hitem
  have hitem0 : (0 : ℚ)
      ≤ ((varLinesOf c origin (entrySurfaces entries origin)).length : ℚ)
        * lineHeight c := by positivity
  have hih : itemHeightOf c origin (entrySurfaces entries origin)
      = lineHeight c
        + ((varLinesOf c origin (entrySurfaces entries origin)).length : ℚ)
          * lineHeight c := rfl
  have hxb := colX_bounds c hcw hcol1
  have hres := varFold_good c (colX c st1.col) hxb.1 hxb.2 hlh
    (varLinesOf c origin (entrySurfaces entries origin))
    { (emit st1 (colX c st1.col) st1.y ("  " ++ displayWordOf c origin)
        c.fontSize) with y := st1.y + lineHeight c } ?_ ?_ ?_
  · exact ⟨hres.1, hres.2.1, by rw [hres.2.2.1]; exact hcol1⟩
  · intro p hp
    rcases List.mem_append.mp hp with hp | hp
    · exact hok p (hout1 ▸ hp)
    · rw [List.mem_singleton] at hp
      subst hp
      refine Or.inr ⟨hxb.1, ?_, hy1, ?_⟩
      · show colX c st1.col ≤ c.pageWidth - 40
        linarith [hxb.2]
      · show st1.y ≤ c.pageHeight - 50
        nlinarith [hfit, hih, hitem0, hlh]
  · show 50 ≤ st1.y + lineHeight c
    linarith
  · show st1.y + lineHeight c
        + ((varLinesOf c origin (entrySurfaces entries origin)).length : ℚ)
          * lineHeight c ≤ c.pageHeight - 50 + lineHeight c
    rw [hih] at hfit
    linarith

theorem placeLib_eq (c : LayoutConfig) (st : LState) (lib : String)
    (entries : List (String × List String)) :
    placeLib c st lib entries
      = { ((sortStrs (fun a b => pyStrLe (pyLower a) (pyLower b))
            (entries.map Prod.fst)).foldl (placeOrigin c entries)
            { (emit (advanceIfNeeded c (headerHeight c + lineHeight c) st)
                (colX c (advanceIfNeeded c (headerHeight c + lineHeight c) st).col)
                (advanceIfNeeded c (headerHeight c + lineHeight c) st).y
                ("■ " ++ lib) (libTitleFontSize c)) with
                y := (advanceIfNeeded c (headerHeight c + lineHeight c) st).y
                       + headerHeight c }) with
          y := ((sortStrs (fun a b => pyStrLe (pyLower a) (pyLower b))
            (entries.map Prod.fst)).foldl (placeOrigin c entries)
            { (emit (advanceIfNeeded c (headerHeight c + lineHeight c) st)
                (colX c (advanceIfNeeded c (headerHeight c + lineHeight c) st).col)
                (advanceIfNeeded c (headerHeight c + lineHeight c) st).y
                ("■ " ++ lib) (libTitleFontSize c)) with
                y := (advanceIfNeeded c (headerHeight c + lineHeight c) st).y
                       + headerHeight c }).y + lineHeight c / 2 } := rfl

theorem originsFold_good (c : LayoutConfig) (entries : List (String × List String))
    (hcc : 1 ≤ c.colCount) (hcw : 10 ≤ colWidth c) (hfs : 0 ≤ c.fontSize) :
    ∀ (origins : List String) (st : LState),
      (∀ o ∈ origins,
        itemHeightOf c o (entrySurfaces entries o) ≤ c.pageHeight - 100) →
      outOk c st.out → 50 ≤ st.y → st.col < c.colCount →
      outOk c (origins.foldl (placeOrigin c entries) st).out ∧
      50 ≤ (origins.foldl (placeOrigin c entries) st).y ∧
      (origins.foldl (placeOrigin c entries) st).col < c.colCount := by
  intro origins
  induction origins with
  | nil =>
    intro st _ h1 h2 h3
    exact ⟨h1, h2, h3⟩
  | cons o os ih =>
    intro st hit h1 h2 h3
    rw [List.foldl_cons]
    have hpo := placeOrigin_good c entries st o hcc hcw hfs
      (hit o (List.mem_cons_self _ _)) h1 h2 h3
    exact ih _ (fun o' ho' => hit o' (List.mem_cons_of_mem _ ho')) hpo.1 hpo.2.1 hpo.2.2

theorem placeLib_good (c : LayoutConfig) (st : LState) (lib : String)
    (entries : List (String × List String))
    (hcc : 1 ≤ c.colCount) (hcw : 10 ≤ colWidth c) (hfs : 0 ≤ c.fontSize)
    (hfit : headerHeight c + lineHeight c ≤ c.pageHeight - 100)
    (hentries : ∀ en ∈ entries,
      itemHeightOf c en.1 (entrySurfaces entries en.1) ≤ c.pageHeight - 100)
    (hok : outOk c st.out) (hy : 50 ≤ st.y) (hcol : st.col < c.colCount) :
    outOk c (placeLib c st lib entries).out ∧
    50 ≤ (placeLib c st lib entries).y ∧
    (placeLib c st lib entries).col < c.colCount := by
  have hlh : 0 ≤ lineHeight c := mul_nonneg hfs (by norm_num)
  have hhh : 0 ≤ headerHeight c := mul_nonneg hfs (by norm_num)
  rw [placeLib_eq]
  set st1 := advanceIfNeeded c (headerHeight c + lineHeight c) st with hst1
  have hout1 : st1.out = st.out := advanceIfNeeded_out c _ st
  have hy1 : 50 ≤ st1.y := advanceIfNeeded_y_low c _ st hy
  have hcol1 : st1.col < c.colCount := advanceIfNeeded_col c _ st hcc hcol
  have hfit1 : st1.y + (headerHeight c + lineHeight c) ≤ c.pageHeight - 50 :=
    advanceIfNeeded_fit c _ st hfit
  have hxb := colX_bounds c hcw hcol1
  have hres := originsFold_good c entries hcc hcw hfs
    (sortStrs (fun a b => pyStrLe (pyLower a) (pyLower b)) (entries.map Prod.fst))
    { (emit st1 (colX c st1.col) st1.y ("■ " ++ lib) (libTitleFontSize c)) with
        y := st1.y + headerHeight c } ?_ ?_ ?_ ?_
  · refine ⟨hres.1, ?_, hres.2.2⟩
    have := hres.2.1
    show (50 : ℚ) ≤ _ + lineHeight c / 2
    linarith
  · intro o ho
    rw [mem_sortStrs, List.mem_map] at ho
    obtain ⟨en, hen, rfl⟩ := ho
    exact hentries en hen
  · intro p hp
    rcases List.mem_append.mp hp with hp | hp
    · exact hok p (hout1 ▸ hp)
    · rw [List.mem_singleton] at hp
      subst hp
      refine Or.inr ⟨hxb.1, ?_, hy1, ?_⟩
      · show colX c st1.col ≤ c.pageWidth - 40
        linarith [hxb.2]
      · show st1.y ≤ c.pageHeight - 50
        linarith
  · show 50 ≤ st1.y + headerHeight c
    linarith
  · show st1.col < c.colCount
    exact hcol1

theorem dataFold_good (c : LayoutConfig)
    (hcc : 1 ≤ c.colCount) (hcw : 10 ≤ colWidth c) (hfs : 0 ≤ c.fontSize)
    (hfit : headerHeight c + lineHeight c ≤ c.pageHeight - 100) :
    ∀ (data : List (String × List (String × List String))) (st : LState),
      (∀ le ∈ data, ∀ en ∈ le.2,
        itemHeightOf c en.1 (entrySurfaces le.2 en.1) ≤ c.pageHeight - 100) →
      outOk c st.out → 50 ≤ st.y → st.col < c.colCount →
      outOk c (data.foldl
        (fun (st : LState) (p : String × List (String × List String)) =>
          if p.2.isEmpty then st else placeLib c st p.1 p.2) st).out ∧
      50 ≤ (data.foldl
        (fun (st : LState) (p : String × List (String × List String)) =>
          if p.2.isEmpty then st else placeLib c st p.1 p.2) st).y ∧
      (data.foldl
        (fun (st : LState) (p : String × List (String × List String)) =>
          if p.2.isEmpty then st else placeLib c st p.1 p.2) st).col < c.colCount := by
  intro data
  induction data with
  | nil =>
    intro st _ h1 h2 h3
    exact ⟨h1, h2, h3⟩
  | cons le les ih =>
    intro st hdata h1 h2 h3
    rw [List.foldl_cons]
    by_cases hemp : le.2.isEmpty
    · rw [if_pos hemp]
      exact ih st (fun l hl => hdata l (List.mem_cons_of_mem _ hl)) h1 h2 h3
    · rw [if_neg hemp]
      have hpl := placeLib_good c st le.1 le.2 hcc hcw hfs hfit
        (hdata le (List.mem_cons_self _ _)) h1 h2 h3
      exact ih _ (fun l hl => hdata l (List.mem_cons_of_mem _ hl)) hpl.1 hpl.2.1 hpl.2.2

/-- C7 amended: the title "Index of Words" is placed at the fixed position
(40, 30), whose y-coordinate lies above the top margin of 50; every other
placement of the index layout lies inside the margin box
[40, width − 40] × [50, height − 50], provided at least one column, a column
width of at least 10 points, a nonnegative font size, a header fitting a
column, and every entry's total height fitting a single column. -/
theorem C7_amended (c : LayoutConfig)
    (data : List (String × List (String × List String)))
    (hcc : 1 ≤ c.colCount) (hcw : 10 ≤ colWidth c) (hfs : 0 ≤ c.fontSize)
    (hfit : headerHeight c + lineHeight c ≤ c.pageHeight - 100)
    (hdata : ∀ le ∈ data, ∀ en ∈ le.2,
      itemHeightOf c en.1 (entrySurfaces le.2 en.1) ≤ c.pageHeight - 100) :
    ∀ p ∈ layoutIndex c data, p.text = "Index of Words" ∨ inBounds c p := by
  have h := (dataFold_good c hcc hcw hfs hfit data
    ⟨0, 0, 50, [⟨0, 40, 30, "Index of Words", titleFontSize c⟩]⟩ hdata ?_ ?_ ?_).1
  · exact h
  · intro p hp
    rw [List.mem_singleton] at hp
    subst hp
    exact Or.inl rfl
  · exact le_refl _
  · exact hcc

theorem varFold_out_mono (c : LayoutConfig) (x : ℚ) :
    ∀ (vls : List String) (st : LState) {p : Placement}, p ∈ st.out →
      p ∈ (vls.foldl (placeVarLine c x) st).out := by
  intro vls
  induction vls with
  | nil => intro st p hp; exact hp
  | cons v vs ih =>
    intro st p hp
    rw [List.foldl_cons]
    exact ih _ (List.mem_append_left _ hp)

theorem placeOrigin_out_mono (c : LayoutConfig)
    (entries : List (String × List String)) (st : LState) (origin : String)
    {p : Placement} (hp : p ∈ st.out) :
    p ∈ (placeOrigin c entries st origin).out := by
  rw [placeOrigin_eq]
  apply varFold_out_mono
  apply List.mem_append_left
  rw [advanceIfNeeded_out]
  exact hp

theorem originsFold_out_mono (c : LayoutConfig)
    (entries : List (String × List String)) :
    ∀ (origins : List String) (st : LState) {p : Placement}, p ∈ st.out →
      p ∈ (origins.foldl (placeOrigin c entries) st).out := by
  intro origins
  induction origins with
  | nil => intro st p hp; exact hp
  | cons o os ih =>
    intro st p hp
    rw [List.foldl_cons]
    exact ih _ (placeOrigin_out_mono c entries st o hp)

theorem placeLib_out_mono (c : LayoutConfig) (st : LState) (lib : String)
    (entries : List (String × List String)) {p : Placement} (hp : p ∈ st.out) :
    p ∈ (placeLib c st lib entries).out := by
  rw [placeLib_eq]
  apply originsFold_out_mono
  apply List.mem_append_left
  rw [advanceIfNeeded_out]
  exact hp

theorem title_mem_layoutIndex (c : LayoutConfig)
    (data : List (String × List (String × List String))) :
    (⟨0, 40, 30, "Index of Words", titleFontSize c⟩ : Placement)
      ∈ layoutIndex c data := by
  unfold layoutIndex
  have h : ∀ (d : List (String × List (String × List String))) (st : LState)
      (p : Placement), p ∈ st.out →
      p ∈ (d.foldl
        (fun (st : LState) (q : String × List (String × List String)) =>
          if q.2.isEmpty then st else placeLib c st q.1 q.2) st).out := by
    intro d
    induction d with
    | nil => intro st p hp; exact hp
    | cons le les ih =>
      intro st p hp
      rw [List.foldl_cons]
      by_cases hemp : le.2.isEmpty
      · rw [if_pos hemp]
        exact ih st p hp
      · rw [if_neg hemp]
        exact ih _ p (placeLib_out_mono c st le.1 le.2 hp)
  exact h data _ _ (List.mem_singleton_self _)

/-- C7 counterexample: the title "Index of Words" is inserted at the fixed
position (40, 30) (src/App.py line 449), and 30 lies above the top margin 50,
so at the default A4 configuration with one matched entry some rendered index
text position falls outside [margin, dimension − margin]. -/
theorem C7_counterexample :
    ∃ p ∈ layoutIndex ⟨595, 842, 4, 10, true⟩ [("Lib", [("cat", ["Cat"])])],
      p.y < 50 := by
  refine ⟨⟨0, 40, 30, "Index of Words", titleFontSize ⟨595, 842, 4, 10, true⟩⟩,
    title_mem_layoutIndex _ _, ?_⟩
  show (30 : ℚ) < 50
  norm_num

theorem headerMem_demo :
    (⟨0, 40, 50, "■ Lib", libTitleFontSize ⟨595, 842, 4, 10, false⟩⟩ : Placement)
      ∈ layoutIndex ⟨595, 842, 4, 10, false⟩ [("Lib", [("cat", ["cat"])])] := by
  show _ ∈ (placeLib ⟨595, 842, 4, 10, false⟩
    ⟨0, 0, 50, [⟨0, 40, 30, "Index of Words",
      titleFontSize ⟨595, 842, 4, 10, false⟩⟩]⟩ "Lib" [("cat", ["cat"])]).out
  have hadv : advanceIfNeeded ⟨595, 842, 4, 10, false⟩
      (headerHeight ⟨595, 842, 4, 10, false⟩ + lineHeight ⟨595, 842, 4, 10, false⟩)
      ⟨0, 0, 50, [⟨0, 40, 30, "Index of Words",
        titleFontSize ⟨595, 842, 4, 10, false⟩⟩]⟩
      = ⟨0, 0, 50, [⟨0, 40, 30, "Index of Words",
        titleFontSize ⟨595, 842, 4, 10, false⟩⟩]⟩ := by
    unfold advanceIfNeeded
    rw [if_neg]
    show ¬((842 : ℚ) - 50 < 50 + (headerHeight _ + lineHeight _))
    norm_num [headerHeight, lineHeight]
  rw [placeLib_eq, hadv]
  apply originsFold_out_mono
  show _ ∈ _ ++ [(⟨0, colX ⟨595, 842, 4, 10, false⟩ 0, 50, "■ Lib",
    libTitleFontSize ⟨595, 842, 4, 10, false⟩⟩ : Placement)]
  rw [show colX ⟨595, 842, 4, 10, false⟩ 0 = 40 by simp [colX]]
  exact List.mem_append_right _ (List.mem_singleton_self _)

/-- Witness for C7 amended: the section header placement of a concrete run,
which is not the title and lies inside the margin box. -/
theorem C7_amended_witness :
    (⟨0, 40, 50, "■ Lib", libTitleFontSize ⟨595, 842, 4, 10, false⟩⟩
      : Placement).text = "Index of Words" ∨
    inBounds ⟨595, 842, 4, 10, false⟩
      ⟨0, 40, 50, "■ Lib", libTitleFontSize ⟨595, 842, 4, 10, false⟩⟩ :=
  C7_amended ⟨595, 842, 4, 10, false⟩ [("Lib", [("cat", ["cat"])])]
    (by norm_num) (by norm_num [colWidth]) (by norm_num)
    (by norm_num [headerHeight, lineHeight])
    (by
      intro le hle en hen
      rw [List.mem_singleton] at hle
      subst hle
      rw [List.mem_singleton] at hen
      subst hen
      show itemHeightOf ⟨595, 842, 4, 10, false⟩ "cat" _ ≤ 842 - 100
      norm_num [itemHeightOf, varLinesOf, displayVariations, lineHeight])
    ⟨0, 40, 50, "■ Lib", libTitleFontSize ⟨595, 842, 4, 10, false⟩⟩
    headerMem_demo

theorem head_append_left {s t : String} {ch : Char} (h : s.data.head? = some ch) :
    (s ++ t).data.head? = some ch := by
  rw [String.data_append, List.head?_append, h]
  rfl

theorem ne_of_head_ne {s t : String} {c1 c2 : Char} (h1 : s.data.head? = some c1)
    (h2 : t.data.head? = some c2) (h : c1 ≠ c2) : s ≠ t := by
  intro he
  subst he
  rw [h1] at h2
  exact h (Option.some.inj h2)

theorem buildVarLinesGo_head (limit : ℤ) :
    ∀ (vars : List String) (isLater : Bool) (cur : String) (acc : List String),
      (cur.data.head? = some '(' ∨ cur.data.head? = some ' ') →
      (∀ l ∈ acc, l.data.head? = some '(' ∨ l.data.head? = some ' ') →
      ∀ l ∈ buildVarLinesGo limit isLater cur acc vars,
        l.data.head? = some '(' ∨ l.data.head? = some ' ' := by
  intro vars
  induction vars with
  | nil =>
    intro isLater cur acc hcur hacc l hl
    cases isLater <;> rcases List.mem_append.mp hl with hl | hl <;>
      first
        | exact hacc l hl
        | (rw [List.mem_singleton] at hl
           subst hl
           rcases hcur with h | h
           · exact Or.inl (head_append_left h)
           · exact Or.inr (head_append_left h))
  | cons v vs ih =>
    intro isLater cur acc hcur hacc l hl
    cases isLater <;> simp only [buildVarLinesGo] at hl <;> split at hl
    · refine ih true ("  " ++ v) _ (Or.inr rfl) ?_ l hl
      intro l' hl'
      rcases List.mem_append.mp hl' with hl' | hl'
      · exact hacc l' hl'
      · rw [List.mem_singleton] at hl'
        subst hl'
        exact hcur
    · refine ih true (cur ++ v) acc ?_ hacc l hl
      rcases hcur with h | h
      · exact Or.inl (head_append_left h)
      · exact Or.inr (head_append_left h)
    · refine ih true ("  " ++ v) _ (Or.inr rfl) ?_ l hl
      intro l' hl'
      rcases List.mem_append.mp hl' with hl' | hl'
      · exact hacc l' hl'
      · rw [List.mem_singleton] at hl'
        subst hl'
        rcases hcur with h | h
        · exact Or.inl (head_append_left h)
        · exact Or.inr (head_append_left h)
    · refine ih true (cur ++ ", " ++ v) acc ?_ hacc l hl
      rcases hcur with h | h
      · exact Or.inl (head_append_left (head_append_left h))
      · exact Or.inr (head_append_left (head_append_left h))

theorem varLinesOf_head (c : LayoutConfig) (origin : String)
    (surfaces : List String) :
    ∀ l ∈ varLinesOf c origin surfaces,
      l.data.head? = some '(' ∨ l.data.head? = some ' ' := by
  unfold varLinesOf
  split
  · intro l hl
    exact absurd hl (List.not_mem_nil l)
  · exact buildVarLinesGo_head _ _ false "(" [] (Or.inl rfl)
      (fun l hl => absurd hl (List.not_mem_nil l))

theorem varFold_out_spec (c : LayoutConfig) (x : ℚ) :
    ∀ (vls : List String) (st : LState),
      ∃ add : List Placement,
        (vls.foldl (placeVarLine c x) st).out = st.out ++ add ∧
        ∀ p ∈ add, ∃ v ∈ vls, p.text = v := by
  intro vls
  induction vls with
  | nil =>
    intro st
    exact ⟨[], by simp, by simp⟩
  | cons v vs ih =>
    intro st
    rw [List.foldl_cons]
    obtain ⟨add, hout, htext⟩ := ih (placeVarLine c x st v)
    refine ⟨⟨st.page, x + 10, st.y, v, varFontSize c⟩ :: add, ?_, ?_⟩
    · rw [hout]
      show (st.out ++ [⟨st.page, x + 10, st.y, v, varFontSize c⟩]) ++ add = _
      rw [List.append_assoc]
      rfl
    · intro p hp
      rcases List.mem_cons.mp hp with rfl | hp
      · exact ⟨v, List.mem_cons_self _ _, rfl⟩
      · obtain ⟨v', hv', hp'⟩ := htext p hp
        exact ⟨v', List.mem_cons_of_mem _ hv', hp'⟩

theorem placeOrigin_out_spec (c : LayoutConfig)
    (entries : List (String × List String)) (st : LState) (origin : String) :
    ∃ add : List Placement,
      (placeOrigin c entries st origin).out = st.out ++ add ∧
      ∀ p ∈ add, p.text.data.head? = some ' ' ∨ p.text.data.head? = some '(' := by
  rw [placeOrigin_eq]
  set st1 := advanceIfNeeded c
    (itemHeightOf c origin (entrySurfaces entries origin)) st with hst1
  obtain ⟨add, hout, htext⟩ := varFold_out_spec c (colX c st1.col)
    (varLinesOf c origin (entrySurfaces entries origin))
    { (emit st1 (colX c st1.col) st1.y ("  " ++ displayWordOf c origin)
        c.fontSize) with y := st1.y + lineHeight c }
  refine ⟨⟨st1.page, colX c st1.col, st1.y, "  " ++ displayWordOf c origin,
    c.fontSize⟩ :: add, ?_, ?_⟩
  · rw [hout]
    show (st1.out ++ [_]) ++ add = st.out ++ _
    rw [advanceIfNeeded_out, List.append_assoc]
    rfl
  · intro p hp
    rcases List.mem_cons.mp hp with rfl | hp
    · exact Or.inl rfl
    · obtain ⟨v', hv', hp'⟩ := htext p hp
      rw [hp']
      rcases varLinesOf_head c origin (entrySurfaces entries origin) v' hv' with h | h
      · exact Or.inr h
      · exact Or.inl h

theorem originsFold_out_spec (c : LayoutConfig)
    (entries : List (String × List String)) :
    ∀ (origins : List String) (st : LState),
      ∃ add : List Placement,
        (origins.foldl (placeOrigin c entries) st).out = st.out ++ add ∧
        ∀ p ∈ add, p.text.data.head? = some ' ' ∨ p.text.data.head? = some '(' := by
  intro origins
  induction origins with
  | nil =>
    intro st
    exact ⟨[], by simp, by simp⟩
  | cons o os ih =>
    intro st
    rw [List.foldl_cons]
    obtain ⟨add1, hout1, htext1⟩ := placeOrigin_out_spec c entries st o
    obtain ⟨add2, hout2, htext2⟩ := ih (placeOrigin c entries st o)
    refine ⟨add1 ++ add2, ?_, ?_⟩
    · rw [hout2, hout1, List.append_assoc]
    · intro p hp
      rcases List.mem_append.mp hp with hp | hp
      · exact htext1 p hp
      · exact htext2 p hp

theorem placeLib_out_spec (c : LayoutConfig) (st : LState) (lib : String)
    (entries : List (String × List String)) :
    ∃ (hd : Placement) (add : List Placement),
      (placeLib c st lib entries).out = st.out ++ hd :: add ∧
      hd.text = "■ " ++ lib ∧
      ∀ p ∈ add, p.text.data.head? = some ' ' ∨ p.text.data.head? = some '(' := by
  rw [placeLib_eq]
  set st1 := advanceIfNeeded c (headerHeight c + lineHeight c) st with hst1
  obtain ⟨add, hout, htext⟩ := originsFold_out_spec c entries
    (sortStrs (fun a b => pyStrLe (pyLower a) (pyLower b)) (entries.map Prod.fst))
    { (emit st1 (colX c st1.col) st1.y ("■ " ++ lib) (libTitleFontSize c)) with
        y := st1.y + headerHeight c }
  refine ⟨⟨st1.page, colX c st1.col, st1.y, "■ " ++ lib, libTitleFontSize c⟩,
    add, ?_, rfl, htext⟩
  show ((sortStrs _ _).foldl (placeOrigin c entries) _).out = _
  rw [hout]
  show (st1.out ++ [_]) ++ add = st.out ++ _
  rw [advanceIfNeeded_out, List.append_assoc]
  rfl

theorem countP_eq_zero_of_head (f : String) {ch : Char}
    (hf : f.data.head? = some ch) (add : List Placement)
    (hadd : ∀ p ∈ add, p.text.data.head? = some ' ' ∨ p.text.data.head? = some '(')
    (hch : ch ≠ ' ' ∧ ch ≠ '(') :
    add.countP (fun p => p.text == f) = 0 := by
  rw [List.countP_eq_zero]
  intro p hp
  simp only [beq_iff_eq]
  rcases hadd p hp with h | h
  · exact ne_of_head_ne h hf (fun hc => hch.1 hc.symm)
  · exact ne_of_head_ne h hf (fun hc => hch.2 hc.symm)

theorem placeLib_countP_title (c : LayoutConfig) (st : LState) (lib : String)
    (entries : List (String × List String)) :
    (placeLib c st lib entries).out.countP (fun p => p.text == "Index of Words")
      = st.out.countP (fun p => p.text == "Index of Words") := by
  obtain ⟨hd, add, hout, hhd, hadd⟩ := placeLib_out_spec c st lib entries
  rw [hout, List.countP_append, List.countP_cons]
  have h1 : (hd.text == "Index of Words") = false := by
    simp only [beq_eq_false_iff_ne]
    exact ne_of_head_ne (by rw [hhd]; rfl) rfl (by decide)
  rw [h1]
  have h2 := countP_eq_zero_of_head "Index of Words" rfl add hadd (by decide)
  rw [h2]
  simp

theorem placeLib_countP_header_self (c : LayoutConfig) (st : LState) (lib : String)
    (entries : List (String × List String)) :
    (placeLib c st lib entries).out.countP (fun p => p.text == "■ " ++ lib)
      = st.out.countP (fun p => p.text == "■ " ++ lib) + 1 := by
  obtain ⟨hd, add, hout, hhd, hadd⟩ := placeLib_out_spec c st lib entries
  rw [hout, List.countP_append, List.countP_cons]
  have h1 : (hd.text == "■ " ++ lib) = true := by
    simp [hhd]
  rw [h1]
  have h2 := countP_eq_zero_of_head ("■ " ++ lib) rfl add hadd (by decide)
  rw [h2]
  simp

theorem placeLib_countP_header_other (c : LayoutConfig) (st : LState)
    (lib lib0 : String) (entries : List (String × List String))
    (h : lib ≠ lib0) :
    (placeLib c st lib entries).out.countP (fun p => p.text == "■ " ++ lib0)
      = st.out.countP (fun p => p.text == "■ " ++ lib0) := by
  obtain ⟨hd, add, hout, hhd, hadd⟩ := placeLib_out_spec c st lib entries
  rw [hout, List.countP_append, List.countP_cons]
  have h1 : (hd.text == "■ " ++ lib0) = false := by
    simp only [beq_eq_false_iff_ne, hhd]
    intro he
    apply h
    have hdd := congrArg String.data he
    rw [String.data_append, String.data_append] at hdd
    exact String.ext (List.append_cancel_left hdd)
  rw [h1]
  have h2 := countP_eq_zero_of_head ("■ " ++ lib0) rfl add hadd (by decide)
  rw [h2]
  simp

theorem dataFold_countP_title (c : LayoutConfig) :
    ∀ (data : List (String × List (String × List String))) (st : LState),
      (data.foldl (fun (st : LState) (p : String × List (String × List String)) =>
        if p.2.isEmpty then st else placeLib c st p.1 p.2) st).out.countP
          (fun p => p.text == "Index of Words")
        = st.out.countP (fun p => p.text == "Index of Words") := by
  intro data
  induction data with
  | nil => intro st; rfl
  | cons le les ih =>
    intro st
    rw [List.foldl_cons]
    by_cases hemp : le.2.isEmpty
    · rw [if_pos hemp, ih]
    · rw [if_neg hemp, ih, placeLib_countP_title]

theorem dataFold_countP_header_skip (c : LayoutConfig) (lib0 : String) :
    ∀ (data : List (String × List (String × List String))) (st : LState),
      lib0 ∉ data.map Prod.fst →
      (data.foldl (fun (st : LState) (p : String × List (String × List String)) =>
        if p.2.isEmpty then st else placeLib c st p.1 p.2) st).out.countP
          (fun p => p.text == "■ " ++ lib0)
        = st.out.countP (fun p => p.text == "■ " ++ lib0) := by
  intro data
  induction data with
  | nil => intro st _; rfl
  | cons le les ih =>
    intro st hnot
    rw [List.map_cons] at hnot
    have hne : le.1 ≠ lib0 := fun he => hnot (List.mem_cons.mpr (Or.inl he.symm))
    have hnot2 : lib0 ∉ les.map Prod.fst :=
      fun hm => hnot (List.mem_cons_of_mem _ hm)
    rw [List.foldl_cons]
    by_cases hemp : le.2.isEmpty
    · rw [if_pos hemp, ih _ hnot2]
    · rw [if_neg hemp, ih _ hnot2, placeLib_countP_header_other c st le.1 lib0 le.2 hne]

theorem anchor_mono {out : List Placement} (add : List Placement) {n : ℕ}
    (h : n = 0 ∨ ∃ q ∈ out, q.page = n ∧ q.x = 40 ∧ q.y = 50) :
    n = 0 ∨ ∃ q ∈ out ++ add, q.page = n ∧ q.x = 40 ∧ q.y = 50 := by
  rcases h with h | ⟨q, hq, hprops⟩
  · exact Or.inl h
  · exact Or.inr ⟨q, List.mem_append_left _ hq, hprops⟩

/-- Every placement's page, and the cursor's current page, is page 0 or has
some placement at the top margin of column 0: the invariant behind "entries
simply continue at the top margin of column 0 of a new page". -/
def stAnchored (st : LState) : Prop :=
  (∀ p ∈ st.out, p.page = 0 ∨
    ∃ q ∈ st.out, q.page = p.page ∧ q.x = 40 ∧ q.y = 50) ∧
  (st.page = 0 ∨ ∃ q ∈ st.out, q.page = st.page ∧ q.x = 40 ∧ q.y = 50)

theorem colX_zero (c : LayoutConfig) : colX c 0 = 40 := by
  simp [colX]

theorem advanceIfNeeded_cases (c : LayoutConfig) (n : ℚ) (st : LState) :
    advanceIfNeeded c n st = st ∨
    advanceIfNeeded c n st = { st with col := st.col + 1, y := 50 } ∨
    advanceIfNeeded c n st = { st with page := st.page + 1, col := 0, y := 50 } := by
  unfold advanceIfNeeded
  split_ifs
  · exact Or.inr (Or.inr rfl)
  · exact Or.inr (Or.inl rfl)
  · exact Or.inl rfl

theorem stAnchored_add_curpage (st : LState) (pl : Placement)
    (hpg : pl.page = st.page) (h : stAnchored st) :
    (∀ p ∈ st.out ++ [pl], p.page = 0 ∨
      ∃ q ∈ st.out ++ [pl], q.page = p.page ∧ q.x = 40 ∧ q.y = 50) ∧
    (st.page = 0 ∨ ∃ q ∈ st.out ++ [pl], q.page = st.page ∧ q.x = 40 ∧ q.y = 50) := by
  constructor
  · intro p hp
    rcases List.mem_append.mp hp with hp | hp
    · exact anchor_mono _ (h.1 p hp)
    · rw [List.mem_singleton] at hp
      subst hp
      rw [hpg]
      exact anchor_mono _ h.2
  · exact anchor_mono _ h.2

theorem varFold_anchored (c : LayoutConfig) (x : ℚ) :
    ∀ (vls : List String) (st : LState), stAnchored st →
      stAnchored (vls.foldl (placeVarLine c x) st) := by
  intro vls
  induction vls with
  | nil => intro st h; exact h
  | cons v vs ih =>
    intro st h
    rw [List.foldl_cons]
    exact ih _ (stAnchored_add_curpage st ⟨st.page, x + 10, st.y, v, varFontSize c⟩
      rfl h)

theorem placeOrigin_anchored (c : LayoutConfig)
    (entries : List (String × List String)) (st : LState) (origin : String)
    (h : stAnchored st) : stAnchored (placeOrigin c entries st origin) := by
  rw [placeOrigin_eq]
  rcases advanceIfNeeded_cases c
    (itemHeightOf c origin (entrySurfaces entries origin)) st
    with hadv | hadv | hadv <;> rw [hadv]
  · exact varFold_anchored c _ _ _ (stAnchored_add_curpage st
      ⟨st.page, colX c st.col, st.y, "  " ++ displayWordOf c origin, c.fontSize⟩
      rfl h)
  · exact varFold_anchored c _ _ _ (stAnchored_add_curpage
      { st with col := st.col + 1, y := 50 }
      ⟨st.page, colX c (st.col + 1), 50, "  " ++ displayWordOf c origin, c.fontSize⟩
      rfl h)
  · apply varFold_anchored
    constructor
    · intro p hp
      rcases List.mem_append.mp hp with hp | hp
      · exact anchor_mono _ (h.1 p hp)
      · rw [List.mem_singleton] at hp
        subst hp
        refine Or.inr ⟨⟨st.page + 1, colX c 0, 50,
          "  " ++ displayWordOf c origin, c.fontSize⟩,
          List.mem_append_right _ (List.mem_singleton_self _),
          rfl, colX_zero c, rfl⟩
    · refine Or.inr ⟨⟨st.page + 1, colX c 0, 50,
        "  " ++ displayWordOf c origin, c.fontSize⟩,
        List.mem_append_right _ (List.mem_singleton_self _),
        rfl, colX_zero c, rfl⟩

theorem originsFold_anchored (c : LayoutConfig)
    (entries : List (String × List String)) :
    ∀ (origins : List String) (st : LState), stAnchored st →
      stAnchored (origins.foldl (placeOrigin c entries) st) := by
  intro origins
  induction origins with
  | nil => intro st h; exact h
  | cons o os ih =>
    intro st h
    rw [List.foldl_cons]
    exact ih _ (placeOrigin_anchored c entries st o h)

theorem placeLib_anchored (c : LayoutConfig) (st : LState) (lib : String)
    (entries : List (String × List String)) (h : stAnchored st) :
    stAnchored (placeLib c st lib entries) := by
  rw [placeLib_eq]
  rcases advanceIfNeeded_cases c (headerHeight c + lineHeight c) st
    with hadv | hadv | hadv <;> rw [hadv]
  · exact originsFold_anchored c entries _ _ (stAnchored_add_curpage st
      ⟨st.page, colX c st.col, st.y, "■ " ++ lib, libTitleFontSize c⟩ rfl h)
  · exact originsFold_anchored c entries _ _ (stAnchored_add_curpage
      { st with col := st.col + 1, y := 50 }
      ⟨st.page, colX c (st.col + 1), 50, "■ " ++ lib, libTitleFontSize c⟩ rfl h)
  · apply originsFold_anchored
    constructor
    · intro p hp
      rcases List.mem_append.mp hp with hp | hp
      · exact anchor_mono _ (h.1 p hp)
      · rw [List.mem_singleton] at hp
        subst hp
        refine Or.inr ⟨⟨st.page + 1, colX c 0, 50, "■ " ++ lib,
          libTitleFontSize c⟩,
          List.mem_append_right _ (List.mem_singleton_self _),
          rfl, colX_zero c, rfl⟩
    · refine Or.inr ⟨⟨st.page + 1, colX c 0, 50, "■ " ++ lib,
        libTitleFontSize c⟩,
        List.mem_append_right _ (List.mem_singleton_self _),
        rfl, colX_zero c, rfl⟩

theorem dataFold_anchored (c : LayoutConfig) :
    ∀ (data : List (String × List (String × List String))) (st : LState),
      stAnchored st →
      stAnchored (data.foldl
        (fun (st : LState) (p : String × List (String × List String)) =>
          if p.2.isEmpty then st else placeLib c st p.1 p.2) st) := by
  intro data
  induction data with
  | nil => intro st h; exact h
  | cons le les ih =>
    intro st h
    rw [List.foldl_cons]
    by_cases hemp : le.2.isEmpty
    · rw [if_pos hemp]
      exact ih st h
    · rw [if_neg hemp]
      exact ih _ (placeLib_anchored c st le.1 le.2 h)

/-- C10: for every run of the layout, the title "Index of Words" is placed
exactly once, namely at the fixed position (40, 30) on the first index page
(page 0); each nonempty library's section header is placed exactly once (so
overflow pages repeat neither the title nor a section header); and every
index page in use is page 0 or carries a placement at the top margin (40, 50)
of column 0 — entries simply continue there after an overflow. -/
theorem C10_title_header_continuation (c : LayoutConfig)
    (data : List (String × List (String × List String)))
    (le0 : String × List (String × List String))
    (hnodup : (data.map Prod.fst).Nodup) (hle : le0 ∈ data) (hne : le0.2 ≠ []) :
    ((layoutIndex c data).countP (fun p => p.text == "Index of Words") = 1 ∧
      (⟨0, 40, 30, "Index of Words", titleFontSize c⟩ : Placement)
        ∈ layoutIndex c data) ∧
    (layoutIndex c data).countP (fun p => p.text == "■ " ++ le0.1) = 1 ∧
    (∀ p ∈ layoutIndex c data, p.page = 0 ∨
      ∃ q ∈ layoutIndex c data, q.page = p.page ∧ q.x = 40 ∧ q.y = 50) := by
  obtain ⟨lib0, entries0⟩ := le0
  refine ⟨⟨?_, title_mem_layoutIndex c data⟩, ?_, ?_⟩
  · unfold layoutIndex
    rw [dataFold_countP_title]
    rfl
  · obtain ⟨l1, l2, rfl⟩ := List.append_of_mem hle
    rw [List.map_append, List.map_cons] at hnodup
    have hdisj := List.disjoint_of_nodup_append hnodup
    have hl1 : lib0 ∉ l1.map Prod.fst := by
      intro hm
      exact (hdisj hm) (List.mem_cons_self _ _)
    have hl2 : lib0 ∉ l2.map Prod.fst := by
      have h2 := (List.nodup_append.mp hnodup).2.1
      exact (List.nodup_cons.mp h2).1
    have hempf : entries0.isEmpty = false := by
      cases entries0 with
      | nil => exact absurd rfl hne
      | cons a l => rfl
    unfold layoutIndex
    rw [List.foldl_append, List.foldl_cons]
    rw [dataFold_countP_header_skip c lib0 l2 _ hl2]
    show (if (lib0, entries0).2.isEmpty = true then _ else
      placeLib c _ (lib0, entries0).1 (lib0, entries0).2).out.countP _ = 1
    rw [if_neg (by rw [hempf]; exact Bool.false_ne_true)]
    rw [placeLib_countP_header_self]
    rw [dataFold_countP_header_skip c lib0 l1 _ hl1]
    have h0 : ([(⟨0, 40, 30, "Index of Words", titleFontSize c⟩ : Placement)]).countP
        (fun p => p.text == "■ " ++ lib0) = 0 := by
      rw [List.countP_eq_zero]
      intro p hp
      rw [List.mem_singleton] at hp
      subst hp
      simp only [beq_iff_eq]
      exact ne_of_head_ne rfl rfl (by decide)
    rw [h0]
  · have hanch := dataFold_anchored c data
      ⟨0, 0, 50, [⟨0, 40, 30, "Index of Words", titleFontSize c⟩]⟩ ?_
    · exact hanch.1
    · constructor
      · intro p hp
        rw [List.mem_singleton] at hp
        subst hp
        exact Or.inl rfl
      · exact Or.inl rfl

/-- Witness for C10 at a concrete configuration and one-library data. -/
theorem C10_title_header_continuation_witness :
    (((layoutIndex ⟨595, 842, 4, 10, false⟩ [("Lib", [("cat", ["cat"])])]).countP
        (fun p => p.text == "Index of Words") = 1 ∧
      (⟨0, 40, 30, "Index of Words",
        titleFontSize ⟨595, 842, 4, 10, false⟩⟩ : Placement)
        ∈ layoutIndex ⟨595, 842, 4, 10, false⟩ [("Lib", [("cat", ["cat"])])]) ∧
    (layoutIndex ⟨595, 842, 4, 10, false⟩ [("Lib", [("cat", ["cat"])])]).countP
        (fun p => p.text == "■ " ++ ("Lib", [("cat", ["cat"])]).1) = 1 ∧
    (∀ p ∈ layoutIndex ⟨595, 842, 4, 10, false⟩ [("Lib", [("cat", ["cat"])])],
      p.page = 0 ∨
      ∃ q ∈ layoutIndex ⟨595, 842, 4, 10, false⟩ [("Lib", [("cat", ["cat"])])],
        q.page = p.page ∧ q.x = 40 ∧ q.y = 50)) :=
  C10_title_header_continuation ⟨595, 842, 4, 10, false⟩
    [("Lib", [("cat", ["cat"])])] ("Lib", [("cat", ["cat"])])
    (by decide) (by decide) (by decide)
